import Mathlib

set_option maxHeartbeats 1000000
set_option linter.unusedVariables false

namespace DDB

/-! Shallow embedding of the expression-tree compiler of `dynamodb-crud`
(`src/common.rs`, `src/common/condition.rs`, `src/common/selection.rs`,
`src/write/update_item.rs`).  Rust `HashMap`s are modelled as association
lists in insertion order whose lookup semantics is last-writer-wins, the
mutable counter `&mut usize` is threaded explicitly, and the fallible
`serde_dynamo::to_attribute_value` encoder is the `Serialize` parameter. -/

/-- Decimal digit rendering of a natural number with explicit fuel (so it
reduces definitionally); models Rust's decimal `Display` formatting used by
`format!("{index}")`. -/
def fmtNatCore : Nat → Nat → List Char → List Char
  | 0, _, acc => acc
  | fuel + 1, n, acc =>
      let d := Nat.digitChar (n % 10)
      if n / 10 = 0 then d :: acc else fmtNatCore fuel (n / 10) (d :: acc)

/-- Decimal rendering of a counter value, as a string. -/
def fmtNat (n : Nat) : String := ⟨fmtNatCore (n + 1) n []⟩

/-- Reference decimal digit list (most significant digit first), used to
reason about `fmtNat`. -/
def digitsL (n : Nat) : List Char :=
  if n < 10 then [Nat.digitChar n]
  else digitsL (n / 10) ++ [Nat.digitChar (n % 10)]
termination_by n
decreasing_by exact Nat.div_lt_self (by omega) (by omega)

/-- Rust `Vec::join`: concatenate the strings interleaving the separator. -/
def joinSep (sep : String) : List String → String
  | [] => ""
  | [a] => a
  | a :: rest => a ++ sep ++ joinSep sep rest

/-- Model of `std::collections::HashMap` keeping insertion order; a key that
is inserted twice keeps both entries and lookup takes the last one, matching
the map's overwrite semantics. -/
abbrev HMap (V : Type) := List (String × V)

/-- `common.rs` `add_placeholder`: prefix the identifier with `#` and append
it to the path accumulated so far. -/
def add_placeholder (keys : List String) (identifier : String) :
    String × List String :=
  let placeholder := "#" ++ identifier
  (placeholder, keys ++ [placeholder])

/-- `common.rs` `get_expression`: join two expression texts with the operator,
skipping the separator when either side is empty. -/
def get_expression (left : String) (operator : String) (right : String) :
    String :=
  if left = "" then right
  else if right = "" then left
  else left ++ operator ++ right

/-- Subset of `aws_sdk_dynamodb::types::AttributeValue` reachable from the
compilers under scrutiny. -/
inductive AttributeValue where
  | S (s : String)
  | N (s : String)
  | L (l : List AttributeValue)

/-- `common.rs` `ExpressionInput`: expression text plus the two placeholder
maps. -/
structure ExpressionInput where
  expression : String := ""
  expression_attribute_names : HMap String := []
  expression_attribute_values : HMap AttributeValue := []

/-- Body of the `for item in items` loop of `ExpressionInput::merge`: union
the maps and join the expression texts via `get_expression`. -/
def ExpressionInput.merge_step (operator : String)
    (operation item : ExpressionInput) : ExpressionInput :=
  { expression := get_expression operation.expression operator item.expression
    expression_attribute_names :=
      operation.expression_attribute_names ++ item.expression_attribute_names
    expression_attribute_values :=
      operation.expression_attribute_values ++ item.expression_attribute_values }

/-- `ExpressionInput::merge`: fold the items left to right from the default
(empty) operation. -/
def ExpressionInput.merge (operator : String) (items : List ExpressionInput) :
    ExpressionInput :=
  items.foldl (ExpressionInput.merge_step operator) {}

/-- Capability of the generic operand type `T: Serialize`: encoding to the
wire value type, which can fail (`serde_dynamo::to_attribute_value`). -/
class Serialize (T : Type) where
  to_attribute_value : T → Except String AttributeValue

export Serialize (to_attribute_value)

/-- `condition.rs` `LogicalOperator`. -/
inductive LogicalOperator where
  | And
  | Or
deriving DecidableEq

/-- `Deref for LogicalOperator`: the textual separator form. -/
def LogicalOperator.text : LogicalOperator → String
  | .And => " AND "
  | .Or => " OR "

/-- `condition.rs` `Condition<T>`. -/
inductive Condition (T : Type) where
  | BeginsWith (p : String)
  | Between (value1 value2 : T)
  | Contains (value : T)
  | Equals (value : T)
  | GreaterThan (value : T)
  | GreaterThanOrEqual (value : T)
  | In (values : List T)
  | LessThan (value : T)
  | LessThanOrEqual (value : T)
  | NotContains (value : T)
  | NotEqual (value : T)
  | NotNull
  | Null

/-- Loop of the `Condition::In` branch: one value placeholder per element,
formatted from the running counter and the element index, counter advanced
once per element.  Returns the values map entries, the placeholder list and
the final counter. -/
def inLoop {T : Type} [Serialize T] (key : String) :
    List T → Nat → Nat → Except String (HMap AttributeValue × List String × Nat)
  | [], index, _ => .ok ([], [], index)
  | value :: rest, index, in_index => do
      let v ← to_attribute_value value
      let placeholder := ":" ++ key ++ "_in" ++ fmtNat index ++ "_" ++ fmtNat in_index
      let (entries, placeholders, index') ← inLoop key rest (index + 1) (in_index + 1)
      .ok ((placeholder, v) :: entries, placeholder :: placeholders, index')

/-- `Condition::get_expression`: per-operator fragment generation.  Returns
the fragment text, the values-map entries, and the advanced counter. -/
def Condition.get_expression {T : Type} [Serialize T] (c : Condition T)
    (key : String) (key_placeholder : String) (index : Nat) :
    Except String (String × HMap AttributeValue × Nat) :=
  match c with
  | .BeginsWith p =>
      let value_placeholder := ":" ++ key ++ "_begins_with" ++ fmtNat index
      .ok ("begins_with(" ++ key_placeholder ++ ", " ++ value_placeholder ++ ")",
        [(value_placeholder, .S p)], index + 1)
  | .Between value1 value2 => do
      let v1 ← to_attribute_value value1
      let v2 ← to_attribute_value value2
      let value_placeholder_1 := ":" ++ key ++ "_between" ++ fmtNat index
      let value_placeholder_2 := ":" ++ key ++ "_between" ++ fmtNat (index + 1)
      .ok (key_placeholder ++ " BETWEEN " ++ value_placeholder_1 ++ " AND " ++
            value_placeholder_2,
        [(value_placeholder_1, v1), (value_placeholder_2, v2)], index + 2)
  | .Contains value => do
      let v ← to_attribute_value value
      let value_placeholder := ":" ++ key ++ "_contains" ++ fmtNat index
      .ok ("contains(" ++ key_placeholder ++ ", " ++ value_placeholder ++ ")",
        [(value_placeholder, v)], index + 1)
  | .Equals value => do
      let v ← to_attribute_value value
      let value_placeholder := ":" ++ key ++ "_eq" ++ fmtNat index
      .ok (key_placeholder ++ " = " ++ value_placeholder,
        [(value_placeholder, v)], index + 1)
  | .GreaterThan value => do
      let v ← to_attribute_value value
      let value_placeholder := ":" ++ key ++ "_gt" ++ fmtNat index
      .ok (key_placeholder ++ " > " ++ value_placeholder,
        [(value_placeholder, v)], index + 1)
  | .GreaterThanOrEqual value => do
      let v ← to_attribute_value value
      let value_placeholder := ":" ++ key ++ "_gte" ++ fmtNat index
      .ok (key_placeholder ++ " >= " ++ value_placeholder,
        [(value_placeholder, v)], index + 1)
  | .In values => do
      let (entries, placeholders, index') ← inLoop key values index 0
      .ok (key_placeholder ++ " IN (" ++ joinSep ", " placeholders ++ ")",
        entries, index')
  | .LessThan value => do
      let v ← to_attribute_value value
      let value_placeholder := ":" ++ key ++ "_lt" ++ fmtNat index
      .ok (key_placeholder ++ " < " ++ value_placeholder,
        [(value_placeholder, v)], index + 1)
  | .LessThanOrEqual value => do
      let v ← to_attribute_value value
      let value_placeholder := ":" ++ key ++ "_lte" ++ fmtNat index
      .ok (key_placeholder ++ " <= " ++ value_placeholder,
        [(value_placeholder, v)], index + 1)
  | .NotContains value => do
      let v ← to_attribute_value value
      let value_placeholder := ":" ++ key ++ "_not_contains" ++ fmtNat index
      .ok ("NOT contains(" ++ key_placeholder ++ ", " ++ value_placeholder ++ ")",
        [(value_placeholder, v)], index + 1)
  | .NotEqual value => do
      let v ← to_attribute_value value
      let value_placeholder := ":" ++ key ++ "_ne" ++ fmtNat index
      .ok (key_placeholder ++ " <> " ++ value_placeholder,
        [(value_placeholder, v)], index + 1)
  | .NotNull =>
      .ok ("attribute_exists(" ++ key_placeholder ++ ")", [], index)
  | .Null =>
      .ok ("attribute_not_exists(" ++ key_placeholder ++ ")", [], index)

/-- `condition.rs` `KeyCondition<T>`. -/
structure KeyCondition (T : Type) where
  condition : Condition T
  name : String

/-- `condition.rs` `ConditionMap<T>`; the `IndexMap` is modelled as an
insertion-ordered association list. -/
inductive ConditionMap (T : Type) where
  | Leaves (operator : LogicalOperator) (key_conditions : List (KeyCondition T))
  | Node (operator : LogicalOperator) (map : List (String × ConditionMap T))

mutual

/-- `ConditionMap::is_composite`, including the early `return false` when any
child is itself composite under the child nesting flag. -/
def ConditionMap.is_composite {T : Type} : ConditionMap T → Bool → Bool
  | .Leaves _ leaves, is_nested => is_nested && decide (leaves.length > 1)
  | .Node _ map, is_nested =>
      let has_multiple_keys := decide (map.length > 1)
      let child_is_nested := is_nested || has_multiple_keys
      if anyChildComposite map child_is_nested then false
      else if is_nested then has_multiple_keys else false

/-- Helper for the `for value in map.values()` early-return loop inside
`is_composite`. -/
def anyChildComposite {T : Type} : List (String × ConditionMap T) → Bool → Bool
  | [], _ => false
  | child :: rest, is_nested =>
      child.2.is_composite is_nested || anyChildComposite rest is_nested

end

/-- `Leaves` branch body of `get_expression_operation_recursive`: per
condition, allocate the name placeholder against the accumulated path, build
the fragment, and collect one atom per leaf. -/
def leaves_operations {T : Type} [Serialize T] :
    List (KeyCondition T) → List String → Nat →
    Except String (List ExpressionInput × Nat)
  | [], _, index => .ok ([], index)
  | key_condition :: rest, keys, index => do
      let (placeholder, new_keys) := add_placeholder keys key_condition.name
      let key_placeholder := joinSep "." new_keys
      let (expression, expression_attribute_values, index') ←
        key_condition.condition.get_expression key_condition.name key_placeholder index
      let operation : ExpressionInput :=
        { expression
          expression_attribute_names := [(placeholder, key_condition.name)]
          expression_attribute_values }
      let (operations, index'') ← leaves_operations rest keys index'
      .ok (operation :: operations, index'')

mutual

/-- `ConditionMap::get_expression_operation_recursive`: compile the node's
children, merge with the operator text, and wrap in parentheses iff
`is_composite` held for the node with the `is_nested` value it was entered
with. -/
def ConditionMap.get_expression_operation_recursive {T : Type} [Serialize T] :
    ConditionMap T → List String → Nat → Bool →
    Except String (ExpressionInput × Nat)
  | .Leaves operator key_conditions, keys, index, is_nested => do
      let (operations, index') ← leaves_operations key_conditions keys index
      let operation := ExpressionInput.merge operator.text operations
      let operation :=
        if (ConditionMap.Leaves operator key_conditions).is_composite is_nested then
          { operation with expression := "(" ++ operation.expression ++ ")" }
        else operation
      .ok (operation, index')
  | .Node operator map, keys, index, is_nested => do
      let (operations, index') ←
        node_operations map keys index (is_nested || decide (map.length > 1))
      let operation := ExpressionInput.merge operator.text operations
      let operation :=
        if (ConditionMap.Node operator map).is_composite is_nested then
          { operation with expression := "(" ++ operation.expression ++ ")" }
        else operation
      .ok (operation, index')

/-- `Node` branch loop: recurse per child with the extended path and the
updated nesting flag, then insert the child segment's own name placeholder
into the child's result maps. -/
def node_operations {T : Type} [Serialize T] :
    List (String × ConditionMap T) → List String → Nat → Bool →
    Except String (List ExpressionInput × Nat)
  | [], _, index, _ => .ok ([], index)
  | (key, value) :: rest, keys, index, is_nested => do
      let (placeholder, new_keys) := add_placeholder keys key
      let (condition_operation, index') ←
        value.get_expression_operation_recursive new_keys index is_nested
      let condition_operation :=
        { condition_operation with
          expression_attribute_names :=
            condition_operation.expression_attribute_names ++ [(placeholder, key)] }
      let (operations, index'') ← node_operations rest keys index' is_nested
      .ok (condition_operation :: operations, index'')

end

/-- `TryFrom<ConditionMap<T>> for ExpressionInput`: root call with an empty
path, a fresh counter, and `is_nested = false`. -/
def conditionMapTryInto {T : Type} [Serialize T] (condition_map : ConditionMap T) :
    Except String ExpressionInput :=
  (condition_map.get_expression_operation_recursive [] 0 false).map Prod.fst

/-- Variant of `get_expression_operation_recursive` that follows the spec's
description with the final parenthesization step removed: used to state that
the compiler wraps the merged text iff `is_composite` holds. -/
def ConditionMap.merged_operation {T : Type} [Serialize T] :
    ConditionMap T → List String → Nat → Bool →
    Except String (ExpressionInput × Nat)
  | .Leaves operator key_conditions, keys, index, _is_nested =>
      (leaves_operations key_conditions keys index).map
        (fun r => (ExpressionInput.merge operator.text r.1, r.2))
  | .Node operator map, keys, index, is_nested =>
      (node_operations map keys index (is_nested || decide (map.length > 1))).map
        (fun r => (ExpressionInput.merge operator.text r.1, r.2))

/-- `selection.rs` `SelectionMap`; the `IndexMap` is modelled as an
insertion-ordered association list. -/
inductive SelectionMap where
  | Leaves (leaves : List String)
  | Node (map : List (String × SelectionMap))

mutual

/-- `SelectionMap::get_selection_operation_recursive`: leaves allocate their
placeholder against the accumulated path and emit the `.`-joined path text;
nodes recurse per child and insert the child segment's own placeholder; all
atoms merge with `", "`. -/
def SelectionMap.get_selection_operation_recursive :
    SelectionMap → List String → ExpressionInput
  | .Leaves leaves, keys =>
      ExpressionInput.merge ", "
        (leaves.map fun leaf =>
          let (placeholder, new_keys) := add_placeholder keys leaf
          { expression := joinSep "." new_keys
            expression_attribute_names := [(placeholder, leaf)]
            expression_attribute_values := [] })
  | .Node map, keys =>
      ExpressionInput.merge ", " (selection_children map keys)

/-- `Node` branch loop of the selection compiler. -/
def selection_children :
    List (String × SelectionMap) → List String → List ExpressionInput
  | [], _ => []
  | (key, value) :: rest, keys =>
      let (placeholder, new_keys) := add_placeholder keys key
      let operation := value.get_selection_operation_recursive new_keys
      { operation with
        expression_attribute_names :=
          operation.expression_attribute_names ++ [(placeholder, key)] } ::
        selection_children rest keys

end

/-- `From<SelectionMap> for ExpressionInput`: root call with an empty path. -/
def selectionMapInto (selection_map : SelectionMap) : ExpressionInput :=
  selection_map.get_selection_operation_recursive []

/-- `update_item.rs` `PATH_SEPARATOR`. -/
def PATH_SEPARATOR : String := "."

/-- `update_item.rs` `AddOrDeleteInputsMap<T>`. -/
inductive AddOrDeleteInputsMap (T : Type) where
  | Leaves (leaves : List (String × T))
  | Node (map : List (String × AddOrDeleteInputsMap T))

/-- `Leaves` branch loop of `get_add_or_delete_expression_recursive`: per
`(key, value)` pair, allocate the name placeholder, encode the value, format
the `:add_or_delete{index}` value placeholder, and advance the counter. -/
def add_or_delete_leaves {T : Type} [Serialize T] :
    List (String × T) → List String → Nat →
    Except String (List ExpressionInput × Nat)
  | [], _, index => .ok ([], index)
  | (key, value) :: rest, keys, index => do
      let (placeholder, new_keys) := add_placeholder keys key
      let path := joinSep PATH_SEPARATOR new_keys
      let v ← to_attribute_value value
      let value_placeholder := ":add_or_delete" ++ fmtNat index
      let operation : ExpressionInput :=
        { expression := path ++ " " ++ value_placeholder
          expression_attribute_names := [(placeholder, key)]
          expression_attribute_values := [(value_placeholder, v)] }
      let (operations, index') ← add_or_delete_leaves rest keys (index + 1)
      .ok (operation :: operations, index')

mutual

/-- `AddOrDeleteInputsMap::get_add_or_delete_expression_recursive`: compile
each leaf or child, then merge all atoms with `" "`. -/
def AddOrDeleteInputsMap.get_add_or_delete_expression_recursive {T : Type}
    [Serialize T] :
    AddOrDeleteInputsMap T → List String → Nat →
    Except String (ExpressionInput × Nat)
  | .Leaves leaves, keys, index => do
      let (operations, index') ← add_or_delete_leaves leaves keys index
      .ok (ExpressionInput.merge " " operations, index')
  | .Node map, keys, index => do
      let (operations, index') ← add_or_delete_children map keys index
      .ok (ExpressionInput.merge " " operations, index')

/-- `Node` branch loop of the ADD/DELETE compiler. -/
def add_or_delete_children {T : Type} [Serialize T] :
    List (String × AddOrDeleteInputsMap T) → List String → Nat →
    Except String (List ExpressionInput × Nat)
  | [], _, index => .ok ([], index)
  | (key, value) :: rest, keys, index => do
      let (placeholder, new_keys) := add_placeholder keys key
      let (operation, index') ←
        value.get_add_or_delete_expression_recursive new_keys index
      let operation :=
        { operation with
          expression_attribute_names :=
            operation.expression_attribute_names ++ [(placeholder, key)] }
      let (operations, index'') ← add_or_delete_children rest keys index'
      .ok (operation :: operations, index'')

end

/-- `update_item.rs` `SetInput<T>`. -/
inductive SetInput (T : Type) where
  | Assign (value : T)
  | Increment (value : T)
  | Decrement (value : T)
  | ListAppend (value : T)
  | ListPrepend (value : T)
  | IfNotExists (value : T)

/-- `SetInput::get_set_expression`: the six fixed SET templates. -/
def SetInput.get_set_expression {T : Type} :
    SetInput T → String → String → T × String
  | .Assign value, path, value_placeholder =>
      (value, path ++ " = " ++ value_placeholder)
  | .Increment value, path, value_placeholder =>
      (value, path ++ " = " ++ path ++ " + " ++ value_placeholder)
  | .Decrement value, path, value_placeholder =>
      (value, path ++ " = " ++ path ++ " - " ++ value_placeholder)
  | .ListAppend value, path, value_placeholder =>
      (value, path ++ " = list_append(" ++ path ++ ", " ++ value_placeholder ++ ")")
  | .ListPrepend value, path, value_placeholder =>
      (value, path ++ " = list_append(" ++ value_placeholder ++ ", " ++ path ++ ")")
  | .IfNotExists value, path, value_placeholder =>
      (value, path ++ " = if_not_exists(" ++ path ++ ", " ++ value_placeholder ++ ")")

/-- `update_item.rs` `SetInputsMap<T>`. -/
inductive SetInputsMap (T : Type) where
  | Leaves (leaves : List (String × SetInput T))
  | Node (map : List (String × SetInputsMap T))

/-- `Leaves` branch loop of `get_set_expression_recursive`: the `:set{index}`
value placeholder is formatted before the template is filled in, and the
counter advances after the value encodes. -/
def set_leaves {T : Type} [Serialize T] :
    List (String × SetInput T) → List String → Nat →
    Except String (List ExpressionInput × Nat)
  | [], _, index => .ok ([], index)
  | (key, set_operation) :: rest, keys, index => do
      let (placeholder, new_keys) := add_placeholder keys key
      let path := joinSep PATH_SEPARATOR new_keys
      let value_placeholder := ":set" ++ fmtNat index
      let (value, expression) :=
        set_operation.get_set_expression path value_placeholder
      let v ← to_attribute_value value
      let operation : ExpressionInput :=
        { expression
          expression_attribute_names := [(placeholder, key)]
          expression_attribute_values := [(value_placeholder, v)] }
      let (operations, index') ← set_leaves rest keys (index + 1)
      .ok (operation :: operations, index')

mutual

/-- `SetInputsMap::get_set_expression_recursive`: compile each leaf or child,
then merge all atoms with `", "`. -/
def SetInputsMap.get_set_expression_recursive {T : Type} [Serialize T] :
    SetInputsMap T → List String → Nat → Except String (ExpressionInput × Nat)
  | .Leaves leaves, keys, index => do
      let (operations, index') ← set_leaves leaves keys index
      .ok (ExpressionInput.merge ", " operations, index')
  | .Node map, keys, index => do
      let (operations, index') ← set_children map keys index
      .ok (ExpressionInput.merge ", " operations, index')

/-- `Node` branch loop of the SET compiler. -/
def set_children {T : Type} [Serialize T] :
    List (String × SetInputsMap T) → List String → Nat →
    Except String (List ExpressionInput × Nat)
  | [], _, index => .ok ([], index)
  | (key, value) :: rest, keys, index => do
      let (placeholder, new_keys) := add_placeholder keys key
      let (operation, index') ← value.get_set_expression_recursive new_keys index
      let operation :=
        { operation with
          expression_attribute_names :=
            operation.expression_attribute_names ++ [(placeholder, key)] }
      let (operations, index'') ← set_children rest keys index'
      .ok (operation :: operations, index'')

end

/-- `update_item.rs` `UpdateExpressionMap<T>`. -/
inductive UpdateExpressionMap (T : Type) where
  | Add (m : AddOrDeleteInputsMap T)
  | Delete (m : AddOrDeleteInputsMap T)
  | Remove (m : SelectionMap)
  | Set (m : SetInputsMap T)
  | Combined (l : List (UpdateExpressionMap T))

mutual

/-- `UpdateExpressionMap::get_update_expression_recursive`: every variant
compiles to one clause with its keyword prefixed; `Combined` compiles the
sub-trees in order against the same counter and merges the clause texts with
a single space. -/
def UpdateExpressionMap.get_update_expression_recursive {T : Type} [Serialize T] :
    UpdateExpressionMap T → List String → Nat →
    Except String (ExpressionInput × Nat)
  | .Add add_operations, keys, index => do
      let (operation, index') ←
        add_operations.get_add_or_delete_expression_recursive keys index
      .ok ({ operation with expression := "ADD " ++ operation.expression }, index')
  | .Delete delete_operations, keys, index => do
      let (operation, index') ←
        delete_operations.get_add_or_delete_expression_recursive keys index
      .ok ({ operation with expression := "DELETE " ++ operation.expression }, index')
  | .Remove remove_operations, keys, index =>
      let operation := remove_operations.get_selection_operation_recursive keys
      .ok ({ operation with expression := "REMOVE " ++ operation.expression }, index)
  | .Set set_operations, keys, index => do
      let (operation, index') ← set_operations.get_set_expression_recursive keys index
      .ok ({ operation with expression := "SET " ++ operation.expression }, index')
  | .Combined combined_operations, keys, index => do
      let (operations, index') ← combined_loop combined_operations keys index
      .ok (ExpressionInput.merge " " operations, index')

/-- Loop of the `Combined` branch: compile each sub-tree in order against the
shared counter. -/
def combined_loop {T : Type} [Serialize T] :
    List (UpdateExpressionMap T) → List String → Nat →
    Except String (List ExpressionInput × Nat)
  | [], _, index => .ok ([], index)
  | operation :: rest, keys, index => do
      let (compiled, index') ← operation.get_update_expression_recursive keys index
      let (operations, index'') ← combined_loop rest keys index'
      .ok (compiled :: operations, index'')

end

/-- `TryFrom<UpdateExpressionMap<T>> for ExpressionInput`: root call with an
empty path and a fresh counter. -/
def updateMapTryInto {T : Type} [Serialize T]
    (update_expression_map : UpdateExpressionMap T) :
    Except String ExpressionInput :=
  (update_expression_map.get_update_expression_recursive [] 0).map Prod.fst

/-- Concrete operand type used by the worked examples: mirrors the
`serde_json::Value` instances of the repository's tests, plus one value on
which the encoder fails. -/
inductive TestValue where
  | str (s : String)
  | num (n : Nat)
  | bad

/-- Encoder for `TestValue`: strings and numbers encode as in `serde_dynamo`;
`bad` models an operand whose encoding fails. -/
instance : Serialize TestValue where
  to_attribute_value
    | .str s => .ok (.S s)
    | .num n => .ok (.N (fmtNat n))
    | .bad => .error "unsupported value"

/-! Properties of the decimal rendering. -/

theorem String.ext' {s t : String} (h : s.data = t.data) : s = t := by
  cases s; cases t; simp_all

theorem digitChar_isDigit : ∀ m < 10, (Nat.digitChar m).isDigit = true := by decide

theorem digitChar_inj : ∀ m < 10, ∀ n < 10, Nat.digitChar m = Nat.digitChar n → m = n := by
  decide

theorem digitsL_lt {n : Nat} (h : n < 10) : digitsL n = [Nat.digitChar n] := by
  rw [digitsL]
  exact if_pos h

theorem digitsL_ge {n : Nat} (h : ¬ n < 10) :
    digitsL n = digitsL (n / 10) ++ [Nat.digitChar (n % 10)] := by
  rw [digitsL]
  exact if_neg h

theorem fmtNatCore_eq_digitsL :
    ∀ fuel n acc, n < fuel → fmtNatCore fuel n acc = digitsL n ++ acc := by
  intro fuel
  induction fuel with
  | zero => omega
  | succ fuel ih =>
      intro n acc hn
      rw [fmtNatCore]
      by_cases h0 : n / 10 = 0
      · have hlt : n < 10 := by omega
        have hmod : n % 10 = n := Nat.mod_eq_of_lt hlt
        rw [if_pos h0, digitsL_lt hlt, hmod]
        rfl
      · have hge : ¬ n < 10 := by omega
        have hdivlt : n / 10 < n := Nat.div_lt_self (by omega) (by omega)
        have hrec : n / 10 < fuel := by omega
        rw [if_neg h0, ih (n / 10) _ hrec, digitsL_ge hge, List.append_assoc]
        rfl

theorem fmtNat_data (n : Nat) : (fmtNat n).data = digitsL n := by
  have := fmtNatCore_eq_digitsL (n + 1) n [] (by omega)
  simpa [fmtNat] using this

theorem digitsL_ne_nil (n : Nat) : digitsL n ≠ [] := by
  by_cases h : n < 10
  · rw [digitsL_lt h]
    simp
  · rw [digitsL_ge h]
    simp

theorem digitsL_digits (n : Nat) : ∀ c ∈ digitsL n, c.isDigit = true := by
  induction n using Nat.strong_induction_on with
  | _ n ih =>
      by_cases h : n < 10
      · rw [digitsL_lt h]
        intro c hc
        simp only [List.mem_singleton] at hc
        subst hc
        exact digitChar_isDigit n h
      · rw [digitsL_ge h]
        intro c hc
        rcases List.mem_append.mp hc with hm | hm
        · exact ih (n / 10) (Nat.div_lt_self (by omega) (by omega)) c hm
        · simp only [List.mem_singleton] at hm
          subst hm
          exact digitChar_isDigit (n % 10) (Nat.mod_lt n (by omega))

theorem digitsL_inj : ∀ m n, digitsL m = digitsL n → m = n := by
  intro m
  induction m using Nat.strong_induction_on with
  | _ m ih =>
      intro n h
      by_cases hm : m < 10 <;> by_cases hn : n < 10
      · rw [digitsL_lt hm, digitsL_lt hn] at h
        have : Nat.digitChar m = Nat.digitChar n := by simpa using h
        exact digitChar_inj m hm n hn this
      · exfalso
        rw [digitsL_lt hm, digitsL_ge hn] at h
        have hlen := congrArg List.length h
        have hpos := List.length_pos.mpr (digitsL_ne_nil (n / 10))
        rw [List.length_append] at hlen
        simp only [List.length_cons, List.length_nil] at hlen
        omega
      · exfalso
        rw [digitsL_ge hm, digitsL_lt hn] at h
        have hlen := congrArg List.length h
        have hpos := List.length_pos.mpr (digitsL_ne_nil (m / 10))
        rw [List.length_append] at hlen
        simp only [List.length_cons, List.length_nil] at hlen
        omega
      · rw [digitsL_ge hm, digitsL_ge hn] at h
        have hrev := congrArg List.reverse h
        simp only [List.reverse_append, List.reverse_singleton,
          List.singleton_append, List.cons.injEq] at hrev
        have hdiv : m / 10 = n / 10 :=
          ih (m / 10) (Nat.div_lt_self (by omega) (by omega)) (n / 10)
            (List.reverse_inj.mp hrev.2)
        have hmod : m % 10 = n % 10 :=
          digitChar_inj (m % 10) (Nat.mod_lt m (by omega)) (n % 10)
            (Nat.mod_lt n (by omega)) hrev.1
        have h1 := Nat.div_add_mod m 10
        have h2 := Nat.div_add_mod n 10
        omega

theorem fmtNat_inj {m n : Nat} (h : fmtNat m = fmtNat n) : m = n :=
  digitsL_inj m n (by rw [← fmtNat_data, ← fmtNat_data, h])

/-! Extraction of the counter embedded in a value placeholder.  A
placeholder of the condition compiler has the shape
`":" ++ key ++ "_" ++ tag ++ fmtNat index` (with the last character of the
tag a letter) or, for `In` elements,
`":" ++ key ++ "_in" ++ fmtNat index ++ "_" ++ fmtNat element_index`; in
both cases the counter digits can be recovered from the character list, and
placeholders carrying different counters are therefore different strings. -/

/-- Everything before the maximal trailing digit run. -/
def dropTrailDigits (s : List Char) : List Char :=
  (s.reverse.dropWhile Char.isDigit).reverse

/-- The maximal trailing digit run. -/
def takeTrailDigits (s : List Char) : List Char :=
  (s.reverse.takeWhile Char.isDigit).reverse

/-- The digit run that renders the counter of a value placeholder: the
trailing run, except that when it is preceded by an underscore (the `In`
element suffix) the run before the underscore is taken instead. -/
def counterRun (s : List Char) : List Char :=
  let front := dropTrailDigits s
  match front.getLast? with
  | some '_' => takeTrailDigits front.dropLast
  | _ => takeTrailDigits s

theorem takeWhile_append_of_all {p : Char → Bool} {a : List Char}
    (h : ∀ x ∈ a, p x = true) (b : List Char) :
    (a ++ b).takeWhile p = a ++ b.takeWhile p := by
  induction a with
  | nil => simp
  | cons x t ihl =>
      have hx := h x (by simp)
      simp only [List.cons_append, List.takeWhile_cons, hx, if_true]
      rw [ihl (fun y hy => h y (by simp [hy]))]

theorem dropWhile_append_of_all {p : Char → Bool} {a : List Char}
    (h : ∀ x ∈ a, p x = true) (b : List Char) :
    (a ++ b).dropWhile p = b.dropWhile p := by
  induction a with
  | nil => simp
  | cons x t ihl =>
      have hx := h x (by simp)
      simp only [List.cons_append, List.dropWhile_cons, hx, if_true]
      exact ihl (fun y hy => h y (by simp [hy]))

theorem split_trail {front ds : List Char} {c : Char}
    (hlast : front.getLast? = some c) (hc : c.isDigit = false)
    (hds : ∀ x ∈ ds, x.isDigit = true) :
    takeTrailDigits (front ++ ds) = ds ∧ dropTrailDigits (front ++ ds) = front := by
  have hfr : front.reverse.takeWhile Char.isDigit = [] ∧
      front.reverse.dropWhile Char.isDigit = front.reverse := by
    have hne : front ≠ [] := by
      intro h
      rw [h] at hlast
      simp at hlast
    obtain ⟨x, t, hx⟩ : ∃ x t, front.reverse = x :: t := by
      cases hrev : front.reverse with
      | nil => exact absurd (by simpa using congrArg List.reverse hrev) hne
      | cons x t => exact ⟨x, t, rfl⟩
    have hhead : x = c := by
      have : front.getLast? = some x := by
        rw [List.getLast?_eq_head?_reverse, hx]
        rfl
      rw [this] at hlast
      exact (Option.some_inj.mp hlast)
    subst hhead
    rw [hx]
    simp [List.takeWhile_cons, List.dropWhile_cons, hc]
  constructor
  · rw [takeTrailDigits, List.reverse_append,
      takeWhile_append_of_all (by intro x hx; exact hds x (by simpa using hx)),
      hfr.1]
    simp
  · rw [dropTrailDigits, List.reverse_append,
      dropWhile_append_of_all (by intro x hx; exact hds x (by simpa using hx)),
      hfr.2]
    simp

theorem counterRun_plain {front : List Char} {c : Char} (j : Nat)
    (hlast : front.getLast? = some c) (hc : c.isDigit = false) (hus : c ≠ '_') :
    counterRun (front ++ digitsL j) = digitsL j := by
  obtain ⟨htake, hdrop⟩ := split_trail hlast hc (digitsL_digits j)
  rw [counterRun]
  simp only [hdrop, hlast]
  have hmatch : (match some c with
      | some '_' => takeTrailDigits front.dropLast
      | _ => takeTrailDigits (front ++ digitsL j)) =
      takeTrailDigits (front ++ digitsL j) := by
    split
    · rename_i heq
      simp only [Option.some.injEq] at heq
      simp_all
    · rfl
  rw [hmatch, htake]

theorem counterRun_in_suffix {front : List Char} {c : Char} (i j : Nat)
    (hlast : front.getLast? = some c) (hc : c.isDigit = false) (hus : c ≠ '_') :
    counterRun (front ++ digitsL i ++ '_' :: digitsL j) = digitsL i := by
  have hshape : front ++ digitsL i ++ '_' :: digitsL j =
      (front ++ digitsL i ++ ['_']) ++ digitsL j := by
    simp
  have hlast2 : (front ++ digitsL i ++ ['_']).getLast? = some '_' :=
    List.getLast?_concat _
  obtain ⟨htake2, hdrop2⟩ := split_trail hlast2 (by decide) (digitsL_digits j)
  rw [counterRun, hshape]
  simp only [hdrop2, hlast2]
  have hdropLast : (front ++ digitsL i ++ ['_']).dropLast = front ++ digitsL i := by
    simp
  rw [hdropLast]
  obtain ⟨htake1, _⟩ := split_trail hlast hc (digitsL_digits i)
  exact htake1

/-! Inversion helpers for `Except` and basic string facts. -/

theorem bind_ok_iff {ε α β : Type} {e : Except ε α} {f : α → Except ε β} {r : β} :
    (e >>= f) = .ok r ↔ ∃ a, e = .ok a ∧ f a = .ok r := by
  cases e with
  | error msg =>
      simp only [Bind.bind, Except.bind]
      constructor
      · intro h
        cases h
      · rintro ⟨a, ha, _⟩
        cases ha
  | ok a =>
      simp only [Bind.bind, Except.bind]
      constructor
      · intro h
        exact ⟨a, rfl, h⟩
      · rintro ⟨a', ha, hf⟩
        cases ha
        exact hf

theorem bind_error_iff {ε α β : Type} {e : Except ε α} {f : α → Except ε β}
    {msg : ε} :
    (e >>= f) = .error msg ↔
      e = .error msg ∨ ∃ a, e = .ok a ∧ f a = .error msg := by
  cases e with
  | error m =>
      simp only [Bind.bind, Except.bind]
      constructor
      · intro h
        injection h with hm
        exact .inl (by rw [hm])
      · rintro (h | ⟨a, ha, _⟩)
        · injection h with hm
          rw [hm]
        · cases ha
  | ok a =>
      simp only [Bind.bind, Except.bind]
      constructor
      · intro h
        exact .inr ⟨a, rfl, h⟩
      · rintro (h | ⟨a', ha, hf⟩)
        · cases h
        · cases ha
          exact hf

theorem map_ok_iff {ε α β : Type} {e : Except ε α} {f : α → β} {r : β} :
    e.map f = .ok r ↔ ∃ a, e = .ok a ∧ f a = r := by
  cases e with
  | error m =>
      simp [Except.map]
  | ok a =>
      simp [Except.map]

theorem str_ne_empty_iff (s : String) : s ≠ "" ↔ s.data ≠ [] := by
  constructor
  · intro h hd
    exact h (String.ext' (by simpa using hd))
  · intro h hs
    rw [hs] at h
    exact h rfl

theorem append_ne_empty_of_right {a b : String} (h : b ≠ "") : a ++ b ≠ "" := by
  rw [str_ne_empty_iff] at h ⊢
  rw [String.data_append]
  simp [h]

theorem append_ne_empty_of_left {a b : String} (h : a ≠ "") : a ++ b ≠ "" := by
  rw [str_ne_empty_iff] at h ⊢
  rw [String.data_append]
  simp [h]

theorem getLast?_append_of_ne_nil {α : Type} (l1 : List α) {l2 : List α}
    (h : l2 ≠ []) : (l1 ++ l2).getLast? = l2.getLast? := by
  rw [List.getLast?_append]
  cases h2 : l2.getLast? with
  | none => exact absurd (List.getLast?_eq_none_iff.mp h2) h
  | some c => simp

/-! Structure of `ExpressionInput.merge`. -/

theorem foldl_merge_names (operator : String) :
    ∀ (items : List ExpressionInput) (acc : ExpressionInput),
      (items.foldl (ExpressionInput.merge_step operator) acc).expression_attribute_names =
        acc.expression_attribute_names ++
          (items.map (fun i => i.expression_attribute_names)).flatten := by
  intro items
  induction items with
  | nil => simp
  | cons a rest ih =>
      intro acc
      rw [List.foldl_cons, ih]
      simp [ExpressionInput.merge_step, List.append_assoc]

theorem foldl_merge_values (operator : String) :
    ∀ (items : List ExpressionInput) (acc : ExpressionInput),
      (items.foldl (ExpressionInput.merge_step operator) acc).expression_attribute_values =
        acc.expression_attribute_values ++
          (items.map (fun i => i.expression_attribute_values)).flatten := by
  intro items
  induction items with
  | nil => simp
  | cons a rest ih =>
      intro acc
      rw [List.foldl_cons, ih]
      simp [ExpressionInput.merge_step, List.append_assoc]

theorem merge_names (operator : String) (items : List ExpressionInput) :
    (ExpressionInput.merge operator items).expression_attribute_names =
      (items.map (fun i => i.expression_attribute_names)).flatten := by
  rw [ExpressionInput.merge, foldl_merge_names]
  rfl

theorem merge_values (operator : String) (items : List ExpressionInput) :
    (ExpressionInput.merge operator items).expression_attribute_values =
      (items.map (fun i => i.expression_attribute_values)).flatten := by
  rw [ExpressionInput.merge, foldl_merge_values]
  rfl

theorem foldl_merge_expression (operator : String) :
    ∀ (items : List ExpressionInput) (acc : ExpressionInput),
      (items.foldl (ExpressionInput.merge_step operator) acc).expression =
        items.foldl (fun t i => get_expression t operator i.expression)
          acc.expression := by
  intro items
  induction items with
  | nil => intro acc; rfl
  | cons a rest ih =>
      intro acc
      rw [List.foldl_cons, List.foldl_cons, ih]
      rfl

theorem joinSep_cons_cons (sep a b : String) (rest : List String) :
    joinSep sep (a :: b :: rest) = a ++ sep ++ joinSep sep (b :: rest) := by
  rw [joinSep]
  simp

theorem foldl_get_expression_of_ne (operator : String) :
    ∀ (texts : List String) (acc : String), acc ≠ "" →
      (∀ t ∈ texts, t ≠ "") →
      texts.foldl (fun t e => get_expression t operator e) acc =
        joinSep operator (acc :: texts) := by
  intro texts
  induction texts with
  | nil => intro acc _ _; rfl
  | cons t rest ih =>
      intro acc hacc hall
      have ht : t ≠ "" := hall t (by simp)
      have hstep : get_expression acc operator t = acc ++ operator ++ t := by
        rw [get_expression, if_neg hacc, if_neg ht]
      rw [List.foldl_cons, hstep,
        ih (acc ++ operator ++ t)
          (append_ne_empty_of_right ht)
          (fun x hx => hall x (by simp [hx])),
        joinSep_cons_cons]
      cases rest with
      | nil => simp [joinSep, String.append_assoc]
      | cons b br => rw [joinSep_cons_cons, joinSep_cons_cons]; simp [String.append_assoc]

theorem merge_expression_joinSep (operator : String)
    (items : List ExpressionInput) (h : ∀ a ∈ items, a.expression ≠ "") :
    (ExpressionInput.merge operator items).expression =
      joinSep operator (items.map (fun i => i.expression)) := by
  cases items with
  | nil => rfl
  | cons a rest =>
      rw [ExpressionInput.merge, List.foldl_cons, foldl_merge_expression]
      have hstep : (ExpressionInput.merge_step operator {} a).expression =
          a.expression := by
        rw [ExpressionInput.merge_step]
        rfl
      have hne : ∀ t ∈ rest.map (fun i => i.expression), t ≠ "" := by
        intro t ht
        rw [List.mem_map] at ht
        obtain ⟨x, hx, hxt⟩ := ht
        rw [← hxt]
        exact h x (by simp [hx])
      have hfold := foldl_get_expression_of_ne operator
        (rest.map (fun i => i.expression)) a.expression (h a (by simp)) hne
      rw [List.foldl_map] at hfold
      rw [hstep, hfold]
      rfl

/-! Every value placeholder embeds the counter value it was allocated at;
`GoodRuns i i' m` says the values map `m` was filled using counters in
`[i, i')` and that no two entries embed the same counter. -/

/-- The counter digit runs of the keys of a values map. -/
def valueRuns (m : HMap AttributeValue) : List (List Char) :=
  m.map (fun p => counterRun p.1.data)

/-- The values map `m` holds keys whose embedded counters lie in `[i, i')`,
pairwise distinct. -/
def GoodRuns (i i' : Nat) (m : HMap AttributeValue) : Prop :=
  (∀ r ∈ valueRuns m, ∃ j, i ≤ j ∧ j < i' ∧ r = digitsL j) ∧ (valueRuns m).Nodup

theorem goodRuns_nil (i : Nat) : GoodRuns i i [] :=
  ⟨by simp [valueRuns], by simp [valueRuns]⟩

theorem goodRuns_mono {i i' i0 i1 : Nat} {m : HMap AttributeValue}
    (h : GoodRuns i i' m) (h0 : i0 ≤ i) (h1 : i' ≤ i1) : GoodRuns i0 i1 m := by
  refine ⟨fun r hr => ?_, h.2⟩
  obtain ⟨j, hj1, hj2, hj3⟩ := h.1 r hr
  exact ⟨j, by omega, by omega, hj3⟩

theorem valueRuns_append (m1 m2 : HMap AttributeValue) :
    valueRuns (m1 ++ m2) = valueRuns m1 ++ valueRuns m2 := by
  rw [valueRuns, List.map_append]
  rfl

theorem goodRuns_append {i1 i2 i3 : Nat} {m1 m2 : HMap AttributeValue}
    (h12 : i1 ≤ i2) (h23 : i2 ≤ i3)
    (h1 : GoodRuns i1 i2 m1) (h2 : GoodRuns i2 i3 m2) :
    GoodRuns i1 i3 (m1 ++ m2) := by
  constructor
  · intro r hr
    rw [valueRuns_append] at hr
    rcases List.mem_append.mp hr with hm | hm
    · obtain ⟨j, hj1, hj2, hj3⟩ := h1.1 r hm
      exact ⟨j, by omega, by omega, hj3⟩
    · obtain ⟨j, hj1, hj2, hj3⟩ := h2.1 r hm
      exact ⟨j, by omega, by omega, hj3⟩
  · rw [valueRuns_append]
    refine List.Nodup.append h1.2 h2.2 ?_
    intro r hr1 hr2
    obtain ⟨j1, ha1, ha2, ha3⟩ := h1.1 r hr1
    obtain ⟨j2, hb1, hb2, hb3⟩ := h2.1 r hr2
    have : j1 = j2 := digitsL_inj j1 j2 (by rw [← ha3, ← hb3])
    omega

theorem goodRuns_single {i : Nat} {k : String} {v : AttributeValue}
    (h : counterRun k.data = digitsL i) : GoodRuns i (i + 1) [(k, v)] := by
  constructor
  · intro r hr
    simp only [valueRuns, List.map_cons, List.map_nil, List.mem_singleton] at hr
    exact ⟨i, by omega, by omega, by rw [hr, h]⟩
  · simp [valueRuns]

theorem GoodRuns.keys_nodup {i i' : Nat} {m : HMap AttributeValue}
    (h : GoodRuns i i' m) : (m.map Prod.fst).Nodup := by
  have heq : valueRuns m = (m.map Prod.fst).map (fun k => counterRun k.data) := by
    rw [valueRuns, List.map_map]
    rfl
  exact List.Nodup.of_map _ (heq ▸ h.2)

/-! Counter extraction for each placeholder format. -/

theorem getLast_tag (a : String) (lit : String) (c : Char)
    (h : lit.data.getLast? = some c) : (a ++ lit).data.getLast? = some c := by
  rw [String.data_append, getLast?_append_of_ne_nil]
  · exact h
  · intro hnil
    rw [hnil] at h
    cases h

theorem counterRun_mk {head : String} {c : Char} (i : Nat)
    (hlast : head.data.getLast? = some c) (hc : c.isDigit = false)
    (hus : c ≠ '_') :
    counterRun (head ++ fmtNat i).data = digitsL i := by
  rw [String.data_append, fmtNat_data]
  exact counterRun_plain i hlast hc hus

theorem counterRun_mk_in {head : String} {c : Char} (i j : Nat)
    (hlast : head.data.getLast? = some c) (hc : c.isDigit = false)
    (hus : c ≠ '_') :
    counterRun (head ++ fmtNat i ++ "_" ++ fmtNat j).data = digitsL i := by
  have hdata : (head ++ fmtNat i ++ "_" ++ fmtNat j).data =
      head.data ++ digitsL i ++ '_' :: digitsL j := by
    simp [String.data_append, fmtNat_data]
  rw [hdata]
  exact counterRun_in_suffix i j hlast hc hus

theorem inLoop_runs {T : Type} [Serialize T] (key : String) :
    ∀ (values : List T) (i j : Nat) (res : HMap AttributeValue × List String × Nat),
      inLoop key values i j = .ok res → i ≤ res.2.2 ∧ GoodRuns i res.2.2 res.1 := by
  intro values
  induction values with
  | nil =>
      intro i j res h
      simp only [inLoop] at h
      injection h with h
      subst h
      exact ⟨Nat.le_refl i, goodRuns_nil i⟩
  | cons v rest ih =>
      intro i j res h
      simp only [inLoop] at h
      obtain ⟨av, hav, h2⟩ := bind_ok_iff.mp h
      obtain ⟨trip, htrip, hok⟩ := bind_ok_iff.mp h2
      obtain ⟨entries, phs, i'⟩ := trip
      injection hok with hok
      subst hok
      obtain ⟨hle, hruns⟩ := ih (i + 1) (j + 1) (entries, phs, i') htrip
      refine ⟨by exact Nat.le_trans (Nat.le_succ i) hle, ?_⟩
      have hcr : counterRun ((":" ++ key ++ "_in" ++ fmtNat i ++ "_" ++ fmtNat j)).data =
          digitsL i :=
        counterRun_mk_in i j (getLast_tag (":" ++ key) "_in" 'n' (by decide))
          (by decide) (by decide)
      exact goodRuns_append (Nat.le_succ i) hle (goodRuns_single hcr) hruns

theorem condition_runs {T : Type} [Serialize T] (c : Condition T) (key kp : String)
    (i : Nat) (res : String × HMap AttributeValue × Nat)
    (h : c.get_expression key kp i = .ok res) :
    i ≤ res.2.2 ∧ GoodRuns i res.2.2 res.2.1 := by
  cases c with
  | BeginsWith p =>
      simp only [Condition.get_expression] at h
      injection h with h
      subst h
      exact ⟨Nat.le_succ i, goodRuns_single
        (counterRun_mk i (getLast_tag (":" ++ key) "_begins_with" 'h' (by decide))
          (by decide) (by decide))⟩
  | Between v1 v2 =>
      simp only [Condition.get_expression] at h
      obtain ⟨a1, h1, h2⟩ := bind_ok_iff.mp h
      obtain ⟨a2, h3, hok⟩ := bind_ok_iff.mp h2
      injection hok with hok
      subst hok
      refine ⟨Nat.le_add_right i 2, ?_⟩
      have c1 := counterRun_mk i (getLast_tag (":" ++ key) "_between" 'n' (by decide))
        (by decide) (by decide)
      have c2 := counterRun_mk (i + 1)
        (getLast_tag (":" ++ key) "_between" 'n' (by decide)) (by decide) (by decide)
      exact goodRuns_append (Nat.le_succ i) (Nat.le_succ (i + 1))
        (goodRuns_single (v := a1) c1) (goodRuns_single (v := a2) c2)
  | Contains v =>
      simp only [Condition.get_expression] at h
      obtain ⟨a, ha, hok⟩ := bind_ok_iff.mp h
      injection hok with hok
      subst hok
      exact ⟨Nat.le_succ i, goodRuns_single
        (counterRun_mk i (getLast_tag (":" ++ key) "_contains" 's' (by decide))
          (by decide) (by decide))⟩
  | Equals v =>
      simp only [Condition.get_expression] at h
      obtain ⟨a, ha, hok⟩ := bind_ok_iff.mp h
      injection hok with hok
      subst hok
      exact ⟨Nat.le_succ i, goodRuns_single
        (counterRun_mk i (getLast_tag (":" ++ key) "_eq" 'q' (by decide))
          (by decide) (by decide))⟩
  | GreaterThan v =>
      simp only [Condition.get_expression] at h
      obtain ⟨a, ha, hok⟩ := bind_ok_iff.mp h
      injection hok with hok
      subst hok
      exact ⟨Nat.le_succ i, goodRuns_single
        (counterRun_mk i (getLast_tag (":" ++ key) "_gt" 't' (by decide))
          (by decide) (by decide))⟩
  | GreaterThanOrEqual v =>
      simp only [Condition.get_expression] at h
      obtain ⟨a, ha, hok⟩ := bind_ok_iff.mp h
      injection hok with hok
      subst hok
      exact ⟨Nat.le_succ i, goodRuns_single
        (counterRun_mk i (getLast_tag (":" ++ key) "_gte" 'e' (by decide))
          (by decide) (by decide))⟩
  | In values =>
      simp only [Condition.get_expression] at h
      obtain ⟨trip, htrip, hok⟩ := bind_ok_iff.mp h
      obtain ⟨entries, phs, i'⟩ := trip
      injection hok with hok
      subst hok
      exact inLoop_runs key values i 0 (entries, phs, i') htrip
  | LessThan v =>
      simp only [Condition.get_expression] at h
      obtain ⟨a, ha, hok⟩ := bind_ok_iff.mp h
      injection hok with hok
      subst hok
      exact ⟨Nat.le_succ i, goodRuns_single
        (counterRun_mk i (getLast_tag (":" ++ key) "_lt" 't' (by decide))
          (by decide) (by decide))⟩
  | LessThanOrEqual v =>
      simp only [Condition.get_expression] at h
      obtain ⟨a, ha, hok⟩ := bind_ok_iff.mp h
      injection hok with hok
      subst hok
      exact ⟨Nat.le_succ i, goodRuns_single
        (counterRun_mk i (getLast_tag (":" ++ key) "_lte" 'e' (by decide))
          (by decide) (by decide))⟩
  | NotContains v =>
      simp only [Condition.get_expression] at h
      obtain ⟨a, ha, hok⟩ := bind_ok_iff.mp h
      injection hok with hok
      subst hok
      exact ⟨Nat.le_succ i, goodRuns_single
        (counterRun_mk i (getLast_tag (":" ++ key) "_not_contains" 's' (by decide))
          (by decide) (by decide))⟩
  | NotEqual v =>
      simp only [Condition.get_expression] at h
      obtain ⟨a, ha, hok⟩ := bind_ok_iff.mp h
      injection hok with hok
      subst hok
      exact ⟨Nat.le_succ i, goodRuns_single
        (counterRun_mk i (getLast_tag (":" ++ key) "_ne" 'e' (by decide))
          (by decide) (by decide))⟩
  | NotNull =>
      simp only [Condition.get_expression] at h
      injection h with h
      subst h
      exact ⟨Nat.le_refl i, goodRuns_nil i⟩
  | Null =>
      simp only [Condition.get_expression] at h
      injection h with h
      subst h
      exact ⟨Nat.le_refl i, goodRuns_nil i⟩

theorem wrap_values {c : Prop} [Decidable c] (o : ExpressionInput) :
    (if c then { o with expression := "(" ++ o.expression ++ ")" }
     else o).expression_attribute_values = o.expression_attribute_values := by
  split <;> rfl

theorem wrap_names {c : Prop} [Decidable c] (o : ExpressionInput) :
    (if c then { o with expression := "(" ++ o.expression ++ ")" }
     else o).expression_attribute_names = o.expression_attribute_names := by
  split <;> rfl

theorem leaves_operations_runs {T : Type} [Serialize T] :
    ∀ (cs : List (KeyCondition T)) (keys : List String) (i : Nat)
      (res : List ExpressionInput × Nat),
      leaves_operations cs keys i = .ok res →
      i ≤ res.2 ∧ GoodRuns i res.2
        ((res.1.map (fun o => o.expression_attribute_values)).flatten) := by
  intro cs
  induction cs with
  | nil =>
      intro keys i res h
      simp only [leaves_operations] at h
      injection h with h
      subst h
      exact ⟨Nat.le_refl i, goodRuns_nil i⟩
  | cons kc rest ih =>
      intro keys i res h
      simp only [leaves_operations, add_placeholder] at h
      obtain ⟨trip, htrip, h2⟩ := bind_ok_iff.mp h
      obtain ⟨e, vals, i'⟩ := trip
      obtain ⟨pair, hpair, hok⟩ := bind_ok_iff.mp h2
      obtain ⟨ops, i''⟩ := pair
      injection hok with hok
      subst hok
      obtain ⟨hle1, hg1⟩ := condition_runs kc.condition kc.name _ i _ htrip
      obtain ⟨hle2, hg2⟩ := ih keys i' (ops, i'') hpair
      have hle1' : i ≤ i' := hle1
      have hle2' : i' ≤ i'' := hle2
      exact ⟨by omega, goodRuns_append hle1' hle2' hg1 hg2⟩

mutual

theorem cond_map_runs {T : Type} [Serialize T] :
    ∀ (t : ConditionMap T) (keys : List String) (i : Nat) (b : Bool)
      (res : ExpressionInput × Nat),
      t.get_expression_operation_recursive keys i b = .ok res →
      i ≤ res.2 ∧ GoodRuns i res.2 res.1.expression_attribute_values
  | .Leaves operator cs, keys, i, b, res, h => by
      simp only [ConditionMap.get_expression_operation_recursive] at h
      obtain ⟨pair, hpair, hok⟩ := bind_ok_iff.mp h
      obtain ⟨ops, i'⟩ := pair
      injection hok with hok
      subst hok
      obtain ⟨hle, hg⟩ := leaves_operations_runs cs keys i (ops, i') hpair
      refine ⟨hle, ?_⟩
      rw [wrap_values, merge_values]
      exact hg
  | .Node operator m, keys, i, b, res, h => by
      simp only [ConditionMap.get_expression_operation_recursive] at h
      obtain ⟨pair, hpair, hok⟩ := bind_ok_iff.mp h
      obtain ⟨ops, i'⟩ := pair
      injection hok with hok
      subst hok
      obtain ⟨hle, hg⟩ := node_ops_runs m keys i _ (ops, i') hpair
      refine ⟨hle, ?_⟩
      rw [wrap_values, merge_values]
      exact hg

theorem node_ops_runs {T : Type} [Serialize T] :
    ∀ (l : List (String × ConditionMap T)) (keys : List String) (i : Nat)
      (b : Bool) (res : List ExpressionInput × Nat),
      node_operations l keys i b = .ok res →
      i ≤ res.2 ∧ GoodRuns i res.2
        ((res.1.map (fun o => o.expression_attribute_values)).flatten)
  | [], keys, i, b, res, h => by
      simp only [node_operations] at h
      injection h with h
      subst h
      exact ⟨Nat.le_refl i, goodRuns_nil i⟩
  | (k, v) :: rest, keys, i, b, res, h => by
      simp only [node_operations, add_placeholder] at h
      obtain ⟨pair1, hchild, h2⟩ := bind_ok_iff.mp h
      obtain ⟨childOp, i'⟩ := pair1
      obtain ⟨pair2, hrest, hok⟩ := bind_ok_iff.mp h2
      obtain ⟨ops, i''⟩ := pair2
      injection hok with hok
      subst hok
      obtain ⟨hle1, hg1⟩ := cond_map_runs v _ i b (childOp, i') hchild
      obtain ⟨hle2, hg2⟩ := node_ops_runs rest keys i' b (ops, i'') hrest
      have hle1' : i ≤ i' := hle1
      have hle2' : i' ≤ i'' := hle2
      exact ⟨by omega, goodRuns_append hle1' hle2' hg1 hg2⟩

end

theorem flatten_nil_of_all {α : Type} :
    ∀ (l : List (List α)), (∀ x ∈ l, x = []) → l.flatten = [] := by
  intro l
  induction l with
  | nil => intro _; rfl
  | cons a rest ih =>
      intro h
      rw [List.flatten_cons, h a (by simp), ih (fun x hx => h x (by simp [hx]))]
      rfl

mutual

theorem selection_values_nil :
    ∀ (s : SelectionMap) (keys : List String),
      (s.get_selection_operation_recursive keys).expression_attribute_values = []
  | .Leaves leaves, keys => by
      simp only [SelectionMap.get_selection_operation_recursive]
      rw [merge_values]
      apply flatten_nil_of_all
      intro x hx
      rw [List.map_map, List.mem_map] at hx
      obtain ⟨leaf, _, hfx⟩ := hx
      rw [← hfx]
      rfl
  | .Node m, keys => by
      simp only [SelectionMap.get_selection_operation_recursive]
      rw [merge_values]
      apply flatten_nil_of_all
      intro x hx
      rw [List.mem_map] at hx
      obtain ⟨o, ho, hox⟩ := hx
      rw [← hox]
      exact sel_children_values m keys o ho

theorem sel_children_values :
    ∀ (l : List (String × SelectionMap)) (keys : List String)
      (o : ExpressionInput), o ∈ selection_children l keys →
      o.expression_attribute_values = []
  | [], _, o, h => by
      simp only [selection_children] at h
      cases h
  | (k, v) :: rest, keys, o, h => by
      simp only [selection_children, add_placeholder] at h
      rcases List.mem_cons.mp h with heq | hmem
      · rw [heq]
        exact selection_values_nil v _
      · exact sel_children_values rest keys o hmem

end

theorem add_or_delete_leaves_runs {T : Type} [Serialize T] :
    ∀ (ls : List (String × T)) (keys : List String) (i : Nat)
      (res : List ExpressionInput × Nat),
      add_or_delete_leaves ls keys i = .ok res →
      i ≤ res.2 ∧ GoodRuns i res.2
        ((res.1.map (fun o => o.expression_attribute_values)).flatten) := by
  intro ls
  induction ls with
  | nil =>
      intro keys i res h
      simp only [add_or_delete_leaves] at h
      injection h with h
      subst h
      exact ⟨Nat.le_refl i, goodRuns_nil i⟩
  | cons kv rest ih =>
      intro keys i res h
      obtain ⟨key, value⟩ := kv
      simp only [add_or_delete_leaves, add_placeholder] at h
      obtain ⟨v, hv, h2⟩ := bind_ok_iff.mp h
      obtain ⟨pair, hpair, hok⟩ := bind_ok_iff.mp h2
      obtain ⟨ops, i'⟩ := pair
      injection hok with hok
      subst hok
      obtain ⟨hle, hg⟩ := ih keys (i + 1) (ops, i') hpair
      have hle' : i + 1 ≤ i' := hle
      have hcr : counterRun ((":add_or_delete" ++ fmtNat i)).data = digitsL i :=
        counterRun_mk (c := 'e') i (by decide) (by decide) (by decide)
      exact ⟨by omega, goodRuns_append (Nat.le_succ i) hle'
        (goodRuns_single hcr) hg⟩

mutual

theorem aod_map_runs {T : Type} [Serialize T] :
    ∀ (m : AddOrDeleteInputsMap T) (keys : List String) (i : Nat)
      (res : ExpressionInput × Nat),
      m.get_add_or_delete_expression_recursive keys i = .ok res →
      i ≤ res.2 ∧ GoodRuns i res.2 res.1.expression_attribute_values
  | .Leaves ls, keys, i, res, h => by
      simp only [AddOrDeleteInputsMap.get_add_or_delete_expression_recursive] at h
      obtain ⟨pair, hpair, hok⟩ := bind_ok_iff.mp h
      obtain ⟨ops, i'⟩ := pair
      injection hok with hok
      subst hok
      obtain ⟨hle, hg⟩ := add_or_delete_leaves_runs ls keys i (ops, i') hpair
      refine ⟨hle, ?_⟩
      rw [merge_values]
      exact hg
  | .Node m, keys, i, res, h => by
      simp only [AddOrDeleteInputsMap.get_add_or_delete_expression_recursive] at h
      obtain ⟨pair, hpair, hok⟩ := bind_ok_iff.mp h
      obtain ⟨ops, i'⟩ := pair
      injection hok with hok
      subst hok
      obtain ⟨hle, hg⟩ := aod_children_runs m keys i (ops, i') hpair
      refine ⟨hle, ?_⟩
      rw [merge_values]
      exact hg

theorem aod_children_runs {T : Type} [Serialize T] :
    ∀ (l : List (String × AddOrDeleteInputsMap T)) (keys : List String)
      (i : Nat) (res : List ExpressionInput × Nat),
      add_or_delete_children l keys i = .ok res →
      i ≤ res.2 ∧ GoodRuns i res.2
        ((res.1.map (fun o => o.expression_attribute_values)).flatten)
  | [], keys, i, res, h => by
      simp only [add_or_delete_children] at h
      injection h with h
      subst h
      exact ⟨Nat.le_refl i, goodRuns_nil i⟩
  | (k, v) :: rest, keys, i, res, h => by
      simp only [add_or_delete_children, add_placeholder] at h
      obtain ⟨pair1, hchild, h2⟩ := bind_ok_iff.mp h
      obtain ⟨childOp, i'⟩ := pair1
      obtain ⟨pair2, hrest, hok⟩ := bind_ok_iff.mp h2
      obtain ⟨ops, i''⟩ := pair2
      injection hok with hok
      subst hok
      obtain ⟨hle1, hg1⟩ := aod_map_runs v _ i (childOp, i') hchild
      obtain ⟨hle2, hg2⟩ := aod_children_runs rest keys i' (ops, i'') hrest
      have hle1' : i ≤ i' := hle1
      have hle2' : i' ≤ i'' := hle2
      exact ⟨by omega, goodRuns_append hle1' hle2' hg1 hg2⟩

end

theorem set_leaves_runs {T : Type} [Serialize T] :
    ∀ (ls : List (String × SetInput T)) (keys : List String) (i : Nat)
      (res : List ExpressionInput × Nat),
      set_leaves ls keys i = .ok res →
      i ≤ res.2 ∧ GoodRuns i res.2
        ((res.1.map (fun o => o.expression_attribute_values)).flatten) := by
  intro ls
  induction ls with
  | nil =>
      intro keys i res h
      simp only [set_leaves] at h
      injection h with h
      subst h
      exact ⟨Nat.le_refl i, goodRuns_nil i⟩
  | cons kv rest ih =>
      intro keys i res h
      obtain ⟨key, set_operation⟩ := kv
      simp only [set_leaves, add_placeholder] at h
      rcases hse : set_operation.get_set_expression
          (joinSep PATH_SEPARATOR (keys ++ ["#" ++ key])) (":set" ++ fmtNat i)
        with ⟨value, expression⟩
      rw [hse] at h
      obtain ⟨v, hv, h2⟩ := bind_ok_iff.mp h
      obtain ⟨pair, hpair, hok⟩ := bind_ok_iff.mp h2
      obtain ⟨ops, i'⟩ := pair
      injection hok with hok
      subst hok
      obtain ⟨hle, hg⟩ := ih keys (i + 1) (ops, i') hpair
      have hle' : i + 1 ≤ i' := hle
      have hcr : counterRun ((":set" ++ fmtNat i)).data = digitsL i :=
        counterRun_mk (c := 't') i (by decide) (by decide) (by decide)
      exact ⟨by omega, goodRuns_append (Nat.le_succ i) hle'
        (goodRuns_single hcr) hg⟩

mutual

theorem set_map_runs {T : Type} [Serialize T] :
    ∀ (m : SetInputsMap T) (keys : List String) (i : Nat)
      (res : ExpressionInput × Nat),
      m.get_set_expression_recursive keys i = .ok res →
      i ≤ res.2 ∧ GoodRuns i res.2 res.1.expression_attribute_values
  | .Leaves ls, keys, i, res, h => by
      simp only [SetInputsMap.get_set_expression_recursive] at h
      obtain ⟨pair, hpair, hok⟩ := bind_ok_iff.mp h
      obtain ⟨ops, i'⟩ := pair
      injection hok with hok
      subst hok
      obtain ⟨hle, hg⟩ := set_leaves_runs ls keys i (ops, i') hpair
      refine ⟨hle, ?_⟩
      rw [merge_values]
      exact hg
  | .Node m, keys, i, res, h => by
      simp only [SetInputsMap.get_set_expression_recursive] at h
      obtain ⟨pair, hpair, hok⟩ := bind_ok_iff.mp h
      obtain ⟨ops, i'⟩ := pair
      injection hok with hok
      subst hok
      obtain ⟨hle, hg⟩ := set_children_runs m keys i (ops, i') hpair
      refine ⟨hle, ?_⟩
      rw [merge_values]
      exact hg

theorem set_children_runs {T : Type} [Serialize T] :
    ∀ (l : List (String × SetInputsMap T)) (keys : List String) (i : Nat)
      (res : List ExpressionInput × Nat),
      set_children l keys i = .ok res →
      i ≤ res.2 ∧ GoodRuns i res.2
        ((res.1.map (fun o => o.expression_attribute_values)).flatten)
  | [], keys, i, res, h => by
      simp only [set_children] at h
      injection h with h
      subst h
      exact ⟨Nat.le_refl i, goodRuns_nil i⟩
  | (k, v) :: rest, keys, i, res, h => by
      simp only [set_children, add_placeholder] at h
      obtain ⟨pair1, hchild, h2⟩ := bind_ok_iff.mp h
      obtain ⟨childOp, i'⟩ := pair1
      obtain ⟨pair2, hrest, hok⟩ := bind_ok_iff.mp h2
      obtain ⟨ops, i''⟩ := pair2
      injection hok with hok
      subst hok
      obtain ⟨hle1, hg1⟩ := set_map_runs v _ i (childOp, i') hchild
      obtain ⟨hle2, hg2⟩ := set_children_runs rest keys i' (ops, i'') hrest
      have hle1' : i ≤ i' := hle1
      have hle2' : i' ≤ i'' := hle2
      exact ⟨by omega, goodRuns_append hle1' hle2' hg1 hg2⟩

end

mutual

theorem update_map_runs {T : Type} [Serialize T] :
    ∀ (u : UpdateExpressionMap T) (keys : List String) (i : Nat)
      (res : ExpressionInput × Nat),
      u.get_update_expression_recursive keys i = .ok res →
      i ≤ res.2 ∧ GoodRuns i res.2 res.1.expression_attribute_values
  | .Add m, keys, i, res, h => by
      simp only [UpdateExpressionMap.get_update_expression_recursive] at h
      obtain ⟨pair, hpair, hok⟩ := bind_ok_iff.mp h
      obtain ⟨o, i'⟩ := pair
      injection hok with hok
      subst hok
      exact aod_map_runs m keys i (o, i') hpair
  | .Delete m, keys, i, res, h => by
      simp only [UpdateExpressionMap.get_update_expression_recursive] at h
      obtain ⟨pair, hpair, hok⟩ := bind_ok_iff.mp h
      obtain ⟨o, i'⟩ := pair
      injection hok with hok
      subst hok
      exact aod_map_runs m keys i (o, i') hpair
  | .Remove m, keys, i, res, h => by
      simp only [UpdateExpressionMap.get_update_expression_recursive] at h
      injection h with h
      subst h
      refine ⟨Nat.le_refl i, ?_⟩
      show GoodRuns i i (m.get_selection_operation_recursive keys).expression_attribute_values
      rw [selection_values_nil]
      exact goodRuns_nil i
  | .Set m, keys, i, res, h => by
      simp only [UpdateExpressionMap.get_update_expression_recursive] at h
      obtain ⟨pair, hpair, hok⟩ := bind_ok_iff.mp h
      obtain ⟨o, i'⟩ := pair
      injection hok with hok
      subst hok
      exact set_map_runs m keys i (o, i') hpair
  | .Combined l, keys, i, res, h => by
      simp only [UpdateExpressionMap.get_update_expression_recursive] at h
      obtain ⟨pair, hpair, hok⟩ := bind_ok_iff.mp h
      obtain ⟨ops, i'⟩ := pair
      injection hok with hok
      subst hok
      obtain ⟨hle, hg⟩ := combined_loop_runs l keys i (ops, i') hpair
      refine ⟨hle, ?_⟩
      rw [merge_values]
      exact hg

theorem combined_loop_runs {T : Type} [Serialize T] :
    ∀ (l : List (UpdateExpressionMap T)) (keys : List String) (i : Nat)
      (res : List ExpressionInput × Nat),
      combined_loop l keys i = .ok res →
      i ≤ res.2 ∧ GoodRuns i res.2
        ((res.1.map (fun o => o.expression_attribute_values)).flatten)
  | [], keys, i, res, h => by
      simp only [combined_loop] at h
      injection h with h
      subst h
      exact ⟨Nat.le_refl i, goodRuns_nil i⟩
  | u :: rest, keys, i, res, h => by
      simp only [combined_loop] at h
      obtain ⟨pair1, hchild, h2⟩ := bind_ok_iff.mp h
      obtain ⟨childOp, i'⟩ := pair1
      obtain ⟨pair2, hrest, hok⟩ := bind_ok_iff.mp h2
      obtain ⟨ops, i''⟩ := pair2
      injection hok with hok
      subst hok
      obtain ⟨hle1, hg1⟩ := update_map_runs u keys i (childOp, i') hchild
      obtain ⟨hle2, hg2⟩ := combined_loop_runs rest keys i' (ops, i'') hrest
      have hle1' : i ≤ i' := hle1
      have hle2' : i' ≤ i'' := hle2
      exact ⟨by omega, goodRuns_append hle1' hle2' hg1 hg2⟩

end

/-! Parenthesization policy: the compiled result is the merged (unwrapped)
result, wrapped in parentheses exactly when `is_composite` holds for the
`is_nested` value the node was entered with. -/

theorem anyChild_eq_any {T : Type} :
    ∀ (l : List (String × ConditionMap T)) (b : Bool),
      anyChildComposite l b = l.any (fun child => child.2.is_composite b) := by
  intro l b
  induction l with
  | nil => rfl
  | cons c rest ih =>
      rw [anyChildComposite, List.any_cons, ih]

theorem gEOR_eq_merged {T : Type} [Serialize T] (t : ConditionMap T)
    (keys : List String) (i : Nat) (b : Bool) :
    t.get_expression_operation_recursive keys i b =
      (t.merged_operation keys i b).map
        (fun r => (if t.is_composite b then
            { r.1 with expression := "(" ++ r.1.expression ++ ")" }
          else r.1, r.2)) := by
  cases t with
  | Leaves operator cs =>
      simp only [ConditionMap.get_expression_operation_recursive,
        ConditionMap.merged_operation]
      cases hl : leaves_operations cs keys i with
      | error e => rfl
      | ok pair =>
          obtain ⟨ops, i'⟩ := pair
          rfl
  | Node operator m =>
      simp only [ConditionMap.get_expression_operation_recursive,
        ConditionMap.merged_operation]
      cases hl : node_operations m keys i (b || decide (m.length > 1)) with
      | error e => rfl
      | ok pair =>
          obtain ⟨ops, i'⟩ := pair
          rfl

theorem is_composite_false {T : Type} (t : ConditionMap T) :
    t.is_composite false = false := by
  cases t with
  | Leaves operator cs => rfl
  | Node operator m =>
      simp only [ConditionMap.is_composite]
      split <;> rfl

theorem tryInto_eq_merged {T : Type} [Serialize T] (t : ConditionMap T) :
    conditionMapTryInto t = (t.merged_operation [] 0 false).map Prod.fst := by
  rw [conditionMapTryInto, gEOR_eq_merged]
  cases hm : t.merged_operation [] 0 false with
  | error e => rfl
  | ok pair =>
      obtain ⟨o, i'⟩ := pair
      simp [Except.map, is_composite_false]

/-! Name-placeholder invariant: every names-map entry binds `"#" ++ segment`
to `segment`. -/

/-- Invariant of a names map: each key is the `#`-prefixed copy of its
value. -/
def NamesInv (m : HMap String) : Prop := ∀ p ∈ m, p.1 = "#" ++ p.2

theorem namesInv_nil : NamesInv [] := by
  intro p hp
  cases hp

theorem namesInv_append {m1 m2 : HMap String} (h1 : NamesInv m1)
    (h2 : NamesInv m2) : NamesInv (m1 ++ m2) := by
  intro p hp
  rcases List.mem_append.mp hp with hm | hm
  · exact h1 p hm
  · exact h2 p hm

theorem namesInv_single (s : String) : NamesInv [("#" ++ s, s)] := by
  intro p hp
  simp only [List.mem_singleton] at hp
  rw [hp]

theorem merge_names_inv (operator : String) (items : List ExpressionInput)
    (h : ∀ a ∈ items, NamesInv a.expression_attribute_names) :
    NamesInv (ExpressionInput.merge operator items).expression_attribute_names := by
  rw [merge_names]
  intro p hp
  rw [List.mem_flatten] at hp
  obtain ⟨s, hs, hps⟩ := hp
  rw [List.mem_map] at hs
  obtain ⟨a, ha, has⟩ := hs
  exact h a ha p (has ▸ hps)

theorem leaves_ops_names_inv {T : Type} [Serialize T] :
    ∀ (cs : List (KeyCondition T)) (keys : List String) (i : Nat)
      (res : List ExpressionInput × Nat),
      leaves_operations cs keys i = .ok res →
      ∀ o ∈ res.1, NamesInv o.expression_attribute_names := by
  intro cs
  induction cs with
  | nil =>
      intro keys i res h
      simp only [leaves_operations] at h
      injection h with h
      subst h
      intro o ho
      cases ho
  | cons kc rest ih =>
      intro keys i res h
      simp only [leaves_operations, add_placeholder] at h
      obtain ⟨trip, htrip, h2⟩ := bind_ok_iff.mp h
      obtain ⟨e, vals, i'⟩ := trip
      obtain ⟨pair, hpair, hok⟩ := bind_ok_iff.mp h2
      obtain ⟨ops, i''⟩ := pair
      injection hok with hok
      subst hok
      intro o ho
      rcases List.mem_cons.mp ho with heq | hmem
      · rw [heq]
        exact namesInv_single kc.name
      · exact ih keys i' (ops, i'') hpair o hmem

mutual

theorem cond_map_names_inv {T : Type} [Serialize T] :
    ∀ (t : ConditionMap T) (keys : List String) (i : Nat) (b : Bool)
      (res : ExpressionInput × Nat),
      t.get_expression_operation_recursive keys i b = .ok res →
      NamesInv res.1.expression_attribute_names
  | .Leaves operator cs, keys, i, b, res, h => by
      simp only [ConditionMap.get_expression_operation_recursive] at h
      obtain ⟨pair, hpair, hok⟩ := bind_ok_iff.mp h
      obtain ⟨ops, i'⟩ := pair
      injection hok with hok
      subst hok
      show NamesInv (if _ then _ else _ : ExpressionInput).expression_attribute_names
      rw [wrap_names]
      exact merge_names_inv _ ops (leaves_ops_names_inv cs keys i (ops, i') hpair)
  | .Node operator m, keys, i, b, res, h => by
      simp only [ConditionMap.get_expression_operation_recursive] at h
      obtain ⟨pair, hpair, hok⟩ := bind_ok_iff.mp h
      obtain ⟨ops, i'⟩ := pair
      injection hok with hok
      subst hok
      show NamesInv (if _ then _ else _ : ExpressionInput).expression_attribute_names
      rw [wrap_names]
      exact merge_names_inv _ ops (node_ops_names_inv m keys i _ (ops, i') hpair)

theorem node_ops_names_inv {T : Type} [Serialize T] :
    ∀ (l : List (String × ConditionMap T)) (keys : List String) (i : Nat)
      (b : Bool) (res : List ExpressionInput × Nat),
      node_operations l keys i b = .ok res →
      ∀ o ∈ res.1, NamesInv o.expression_attribute_names
  | [], keys, i, b, res, h => by
      simp only [node_operations] at h
      injection h with h
      subst h
      intro o ho
      cases ho
  | (k, v) :: rest, keys, i, b, res, h => by
      simp only [node_operations, add_placeholder] at h
      obtain ⟨pair1, hchild, h2⟩ := bind_ok_iff.mp h
      obtain ⟨childOp, i'⟩ := pair1
      obtain ⟨pair2, hrest, hok⟩ := bind_ok_iff.mp h2
      obtain ⟨ops, i''⟩ := pair2
      injection hok with hok
      subst hok
      intro o ho
      rcases List.mem_cons.mp ho with heq | hmem
      · rw [heq]
        exact namesInv_append
          (cond_map_names_inv v _ i b (childOp, i') hchild)
          (namesInv_single k)
      · exact node_ops_names_inv rest keys i' b (ops, i'') hrest o hmem

end

mutual

theorem selection_names_inv :
    ∀ (s : SelectionMap) (keys : List String),
      NamesInv (s.get_selection_operation_recursive keys).expression_attribute_names
  | .Leaves leaves, keys => by
      simp only [SelectionMap.get_selection_operation_recursive]
      apply merge_names_inv
      intro a ha
      rw [List.mem_map] at ha
      obtain ⟨leaf, _, hfa⟩ := ha
      rw [← hfa]
      exact namesInv_single leaf
  | .Node m, keys => by
      simp only [SelectionMap.get_selection_operation_recursive]
      apply merge_names_inv
      intro a ha
      exact sel_children_names_inv m keys a ha

theorem sel_children_names_inv :
    ∀ (l : List (String × SelectionMap)) (keys : List String)
      (o : ExpressionInput), o ∈ selection_children l keys →
      NamesInv o.expression_attribute_names
  | [], _, o, h => by
      simp only [selection_children] at h
      cases h
  | (k, v) :: rest, keys, o, h => by
      simp only [selection_children, add_placeholder] at h
      rcases List.mem_cons.mp h with heq | hmem
      · rw [heq]
        exact namesInv_append (selection_names_inv v _) (namesInv_single k)
      · exact sel_children_names_inv rest keys o hmem

end

theorem aod_leaves_names_inv {T : Type} [Serialize T] :
    ∀ (ls : List (String × T)) (keys : List String) (i : Nat)
      (res : List ExpressionInput × Nat),
      add_or_delete_leaves ls keys i = .ok res →
      ∀ o ∈ res.1, NamesInv o.expression_attribute_names := by
  intro ls
  induction ls with
  | nil =>
      intro keys i res h
      simp only [add_or_delete_leaves] at h
      injection h with h
      subst h
      intro o ho
      cases ho
  | cons kv rest ih =>
      intro keys i res h
      obtain ⟨key, value⟩ := kv
      simp only [add_or_delete_leaves, add_placeholder] at h
      obtain ⟨v, hv, h2⟩ := bind_ok_iff.mp h
      obtain ⟨pair, hpair, hok⟩ := bind_ok_iff.mp h2
      obtain ⟨ops, i'⟩ := pair
      injection hok with hok
      subst hok
      intro o ho
      rcases List.mem_cons.mp ho with heq | hmem
      · rw [heq]
        exact namesInv_single key
      · exact ih keys (i + 1) (ops, i') hpair o hmem

theorem set_leaves_names_inv {T : Type} [Serialize T] :
    ∀ (ls : List (String × SetInput T)) (keys : List String) (i : Nat)
      (res : List ExpressionInput × Nat),
      set_leaves ls keys i = .ok res →
      ∀ o ∈ res.1, NamesInv o.expression_attribute_names := by
  intro ls
  induction ls with
  | nil =>
      intro keys i res h
      simp only [set_leaves] at h
      injection h with h
      subst h
      intro o ho
      cases ho
  | cons kv rest ih =>
      intro keys i res h
      obtain ⟨key, set_operation⟩ := kv
      simp only [set_leaves, add_placeholder] at h
      rcases hse : set_operation.get_set_expression
          (joinSep PATH_SEPARATOR (keys ++ ["#" ++ key])) (":set" ++ fmtNat i)
        with ⟨value, expression⟩
      rw [hse] at h
      obtain ⟨v, hv, h2⟩ := bind_ok_iff.mp h
      obtain ⟨pair, hpair, hok⟩ := bind_ok_iff.mp h2
      obtain ⟨ops, i'⟩ := pair
      injection hok with hok
      subst hok
      intro o ho
      rcases List.mem_cons.mp ho with heq | hmem
      · rw [heq]
        exact namesInv_single key
      · exact ih keys (i + 1) (ops, i') hpair o hmem

mutual

theorem aod_map_names_inv {T : Type} [Serialize T] :
    ∀ (m : AddOrDeleteInputsMap T) (keys : List String) (i : Nat)
      (res : ExpressionInput × Nat),
      m.get_add_or_delete_expression_recursive keys i = .ok res →
      NamesInv res.1.expression_attribute_names
  | .Leaves ls, keys, i, res, h => by
      simp only [AddOrDeleteInputsMap.get_add_or_delete_expression_recursive] at h
      obtain ⟨pair, hpair, hok⟩ := bind_ok_iff.mp h
      obtain ⟨ops, i'⟩ := pair
      injection hok with hok
      subst hok
      exact merge_names_inv _ ops (aod_leaves_names_inv ls keys i (ops, i') hpair)
  | .Node m, keys, i, res, h => by
      simp only [AddOrDeleteInputsMap.get_add_or_delete_expression_recursive] at h
      obtain ⟨pair, hpair, hok⟩ := bind_ok_iff.mp h
      obtain ⟨ops, i'⟩ := pair
      injection hok with hok
      subst hok
      exact merge_names_inv _ ops (aod_children_names_inv m keys i (ops, i') hpair)

theorem aod_children_names_inv {T : Type} [Serialize T] :
    ∀ (l : List (String × AddOrDeleteInputsMap T)) (keys : List String)
      (i : Nat) (res : List ExpressionInput × Nat),
      add_or_delete_children l keys i = .ok res →
      ∀ o ∈ res.1, NamesInv o.expression_attribute_names
  | [], keys, i, res, h => by
      simp only [add_or_delete_children] at h
      injection h with h
      subst h
      intro o ho
      cases ho
  | (k, v) :: rest, keys, i, res, h => by
      simp only [add_or_delete_children, add_placeholder] at h
      obtain ⟨pair1, hchild, h2⟩ := bind_ok_iff.mp h
      obtain ⟨childOp, i'⟩ := pair1
      obtain ⟨pair2, hrest, hok⟩ := bind_ok_iff.mp h2
      obtain ⟨ops, i''⟩ := pair2
      injection hok with hok
      subst hok
      intro o ho
      rcases List.mem_cons.mp ho with heq | hmem
      · rw [heq]
        exact namesInv_append (aod_map_names_inv v _ i (childOp, i') hchild)
          (namesInv_single k)
      · exact aod_children_names_inv rest keys i' (ops, i'') hrest o hmem

end

mutual

theorem set_map_names_inv {T : Type} [Serialize T] :
    ∀ (m : SetInputsMap T) (keys : List String) (i : Nat)
      (res : ExpressionInput × Nat),
      m.get_set_expression_recursive keys i = .ok res →
      NamesInv res.1.expression_attribute_names
  | .Leaves ls, keys, i, res, h => by
      simp only [SetInputsMap.get_set_expression_recursive] at h
      obtain ⟨pair, hpair, hok⟩ := bind_ok_iff.mp h
      obtain ⟨ops, i'⟩ := pair
      injection hok with hok
      subst hok
      exact merge_names_inv _ ops (set_leaves_names_inv ls keys i (ops, i') hpair)
  | .Node m, keys, i, res, h => by
      simp only [SetInputsMap.get_set_expression_recursive] at h
      obtain ⟨pair, hpair, hok⟩ := bind_ok_iff.mp h
      obtain ⟨ops, i'⟩ := pair
      injection hok with hok
      subst hok
      exact merge_names_inv _ ops (set_children_names_inv m keys i (ops, i') hpair)

theorem set_children_names_inv {T : Type} [Serialize T] :
    ∀ (l : List (String × SetInputsMap T)) (keys : List String) (i : Nat)
      (res : List ExpressionInput × Nat),
      set_children l keys i = .ok res →
      ∀ o ∈ res.1, NamesInv o.expression_attribute_names
  | [], keys, i, res, h => by
      simp only [set_children] at h
      injection h with h
      subst h
      intro o ho
      cases ho
  | (k, v) :: rest, keys, i, res, h => by
      simp only [set_children, add_placeholder] at h
      obtain ⟨pair1, hchild, h2⟩ := bind_ok_iff.mp h
      obtain ⟨childOp, i'⟩ := pair1
      obtain ⟨pair2, hrest, hok⟩ := bind_ok_iff.mp h2
      obtain ⟨ops, i''⟩ := pair2
      injection hok with hok
      subst hok
      intro o ho
      rcases List.mem_cons.mp ho with heq | hmem
      · rw [heq]
        exact namesInv_append (set_map_names_inv v _ i (childOp, i') hchild)
          (namesInv_single k)
      · exact set_children_names_inv rest keys i' (ops, i'') hrest o hmem

end

mutual

theorem update_map_names_inv {T : Type} [Serialize T] :
    ∀ (u : UpdateExpressionMap T) (keys : List String) (i : Nat)
      (res : ExpressionInput × Nat),
      u.get_update_expression_recursive keys i = .ok res →
      NamesInv res.1.expression_attribute_names
  | .Add m, keys, i, res, h => by
      simp only [UpdateExpressionMap.get_update_expression_recursive] at h
      obtain ⟨pair, hpair, hok⟩ := bind_ok_iff.mp h
      obtain ⟨o, i'⟩ := pair
      injection hok with hok
      subst hok
      exact aod_map_names_inv m keys i (o, i') hpair
  | .Delete m, keys, i, res, h => by
      simp only [UpdateExpressionMap.get_update_expression_recursive] at h
      obtain ⟨pair, hpair, hok⟩ := bind_ok_iff.mp h
      obtain ⟨o, i'⟩ := pair
      injection hok with hok
      subst hok
      exact aod_map_names_inv m keys i (o, i') hpair
  | .Remove m, keys, i, res, h => by
      simp only [UpdateExpressionMap.get_update_expression_recursive] at h
      injection h with h
      subst h
      exact selection_names_inv m keys
  | .Set m, keys, i, res, h => by
      simp only [UpdateExpressionMap.get_update_expression_recursive] at h
      obtain ⟨pair, hpair, hok⟩ := bind_ok_iff.mp h
      obtain ⟨o, i'⟩ := pair
      injection hok with hok
      subst hok
      exact set_map_names_inv m keys i (o, i') hpair
  | .Combined l, keys, i, res, h => by
      simp only [UpdateExpressionMap.get_update_expression_recursive] at h
      obtain ⟨pair, hpair, hok⟩ := bind_ok_iff.mp h
      obtain ⟨ops, i'⟩ := pair
      injection hok with hok
      subst hok
      exact merge_names_inv _ ops (combined_loop_names_inv l keys i (ops, i') hpair)

theorem combined_loop_names_inv {T : Type} [Serialize T] :
    ∀ (l : List (UpdateExpressionMap T)) (keys : List String) (i : Nat)
      (res : List ExpressionInput × Nat),
      combined_loop l keys i = .ok res →
      ∀ o ∈ res.1, NamesInv o.expression_attribute_names
  | [], keys, i, res, h => by
      simp only [combined_loop] at h
      injection h with h
      subst h
      intro o ho
      cases ho
  | u :: rest, keys, i, res, h => by
      simp only [combined_loop] at h
      obtain ⟨pair1, hchild, h2⟩ := bind_ok_iff.mp h
      obtain ⟨childOp, i'⟩ := pair1
      obtain ⟨pair2, hrest, hok⟩ := bind_ok_iff.mp h2
      obtain ⟨ops, i''⟩ := pair2
      injection hok with hok
      subst hok
      intro o ho
      rcases List.mem_cons.mp ho with heq | hmem
      · rw [heq]
        exact update_map_names_inv u keys i (childOp, i') hchild
      · exact combined_loop_names_inv rest keys i' (ops, i'') hrest o hmem

end

theorem hash_inj {a b : String} (h : "#" ++ a = "#" ++ b) : a = b := by
  have hd := congrArg String.data h
  rw [String.data_append, String.data_append] at hd
  have := List.append_cancel_left hd
  exact String.ext' this

/-! Error behavior: compilation succeeds exactly when every leaf operand
encodes, and a returned error is the encoding error of some leaf operand. -/

/-- Whether an `Except` result is a success. -/
def exceptIsOk {ε α : Type} : Except ε α → Bool
  | .ok _ => true
  | .error _ => false

/-- Whether an operand encodes successfully. -/
def encOk {T : Type} [Serialize T] (v : T) : Bool :=
  match to_attribute_value v with
  | .ok _ => true
  | .error _ => false

/-- The operand values a condition variant submits to the value encoder
(`BeginsWith` stores its argument directly, without encoding). -/
def Condition.operands {T : Type} : Condition T → List T
  | .BeginsWith _ => []
  | .Between value1 value2 => [value1, value2]
  | .Contains value => [value]
  | .Equals value => [value]
  | .GreaterThan value => [value]
  | .GreaterThanOrEqual value => [value]
  | .In values => values
  | .LessThan value => [value]
  | .LessThanOrEqual value => [value]
  | .NotContains value => [value]
  | .NotEqual value => [value]
  | .NotNull => []
  | .Null => []

/-- The operand value a SET action submits to the value encoder. -/
def SetInput.operand {T : Type} : SetInput T → T
  | .Assign value => value
  | .Increment value => value
  | .Decrement value => value
  | .ListAppend value => value
  | .ListPrepend value => value
  | .IfNotExists value => value

theorem get_set_expression_fst {T : Type} (s : SetInput T) (path vp : String) :
    (s.get_set_expression path vp).1 = s.operand := by
  cases s <;> rfl

mutual

/-- All leaf operands of a condition tree encode successfully. -/
def ConditionMap.allOk {T : Type} [Serialize T] : ConditionMap T → Bool
  | .Leaves _ cs => cs.all (fun kc => kc.condition.operands.all encOk)
  | .Node _ m => condChildrenOk m

/-- Loop form of `ConditionMap.allOk` over a node's children. -/
def condChildrenOk {T : Type} [Serialize T] :
    List (String × ConditionMap T) → Bool
  | [] => true
  | c :: rest => c.2.allOk && condChildrenOk rest

end

mutual

/-- All operand values of a condition tree, in traversal order. -/
def ConditionMap.operandsList {T : Type} : ConditionMap T → List T
  | .Leaves _ cs => (cs.map (fun kc => kc.condition.operands)).flatten
  | .Node _ m => condChildrenOperands m

/-- Loop form of `ConditionMap.operandsList`. -/
def condChildrenOperands {T : Type} : List (String × ConditionMap T) → List T
  | [] => []
  | c :: rest => c.2.operandsList ++ condChildrenOperands rest

end

mutual

/-- All leaf operands of an ADD/DELETE tree encode successfully. -/
def AddOrDeleteInputsMap.allOk {T : Type} [Serialize T] :
    AddOrDeleteInputsMap T → Bool
  | .Leaves ls => ls.all (fun kv => encOk kv.2)
  | .Node m => aodChildrenOk m

/-- Loop form of `AddOrDeleteInputsMap.allOk`. -/
def aodChildrenOk {T : Type} [Serialize T] :
    List (String × AddOrDeleteInputsMap T) → Bool
  | [] => true
  | c :: rest => c.2.allOk && aodChildrenOk rest

end

mutual

/-- All operand values of an ADD/DELETE tree. -/
def AddOrDeleteInputsMap.operandsList {T : Type} : AddOrDeleteInputsMap T → List T
  | .Leaves ls => ls.map (fun kv => kv.2)
  | .Node m => aodChildrenOperands m

/-- Loop form of `AddOrDeleteInputsMap.operandsList`. -/
def aodChildrenOperands {T : Type} :
    List (String × AddOrDeleteInputsMap T) → List T
  | [] => []
  | c :: rest => c.2.operandsList ++ aodChildrenOperands rest

end

mutual

/-- All leaf operands of a SET tree encode successfully. -/
def SetInputsMap.allOk {T : Type} [Serialize T] : SetInputsMap T → Bool
  | .Leaves ls => ls.all (fun kv => encOk kv.2.operand)
  | .Node m => setChildrenOk m

/-- Loop form of `SetInputsMap.allOk`. -/
def setChildrenOk {T : Type} [Serialize T] :
    List (String × SetInputsMap T) → Bool
  | [] => true
  | c :: rest => c.2.allOk && setChildrenOk rest

end

mutual

/-- All operand values of a SET tree. -/
def SetInputsMap.operandsList {T : Type} : SetInputsMap T → List T
  | .Leaves ls => ls.map (fun kv => kv.2.operand)
  | .Node m => setChildrenOperands m

/-- Loop form of `SetInputsMap.operandsList`. -/
def setChildrenOperands {T : Type} : List (String × SetInputsMap T) → List T
  | [] => []
  | c :: rest => c.2.operandsList ++ setChildrenOperands rest

end

mutual

/-- All leaf operands of an update tree encode successfully (`Remove` has
none). -/
def UpdateExpressionMap.allOk {T : Type} [Serialize T] :
    UpdateExpressionMap T → Bool
  | .Add m => m.allOk
  | .Delete m => m.allOk
  | .Remove _ => true
  | .Set m => m.allOk
  | .Combined l => combinedAllOk l

/-- Loop form of `UpdateExpressionMap.allOk` over a `Combined` list. -/
def combinedAllOk {T : Type} [Serialize T] : List (UpdateExpressionMap T) → Bool
  | [] => true
  | u :: rest => u.allOk && combinedAllOk rest

end

mutual

/-- All operand values of an update tree. -/
def UpdateExpressionMap.operandsList {T : Type} : UpdateExpressionMap T → List T
  | .Add m => m.operandsList
  | .Delete m => m.operandsList
  | .Remove _ => []
  | .Set m => m.operandsList
  | .Combined l => combinedOperands l

/-- Loop form of `UpdateExpressionMap.operandsList`. -/
def combinedOperands {T : Type} : List (UpdateExpressionMap T) → List T
  | [] => []
  | u :: rest => u.operandsList ++ combinedOperands rest

end

theorem isOk_bind_of_total {ε α β : Type} {e : Except ε α} {f : α → Except ε β}
    (hf : ∀ a, ∃ b, f a = .ok b) : exceptIsOk (e >>= f) = exceptIsOk e := by
  cases e with
  | error msg => rfl
  | ok a =>
      simp only [Bind.bind, Except.bind]
      obtain ⟨b, hb⟩ := hf a
      rw [hb]
      rfl

theorem encOk_true_iff {T : Type} [Serialize T] (v : T) :
    encOk v = true ↔ ∃ a, to_attribute_value v = .ok a := by
  rw [encOk]
  cases h : to_attribute_value v with
  | ok a => simp
  | error e => simp

theorem inLoop_isOk_eq {T : Type} [Serialize T] (key : String) :
    ∀ (vs : List T) (i j : Nat), exceptIsOk (inLoop key vs i j) = vs.all encOk := by
  intro vs
  induction vs with
  | nil => intro i j; rfl
  | cons v rest ih =>
      intro i j
      simp only [inLoop]
      cases henc : to_attribute_value v with
      | error e =>
          have hv : encOk v = false := by rw [encOk, henc]
          simp [henc, Bind.bind, Except.bind, exceptIsOk, hv]
      | ok a =>
          have hv : encOk v = true := by rw [encOk, henc]
          rw [List.all_cons, hv, Bool.true_and]
          simp only [henc, Bind.bind, Except.bind]
          refine Eq.trans (isOk_bind_of_total ?_) (ih (i + 1) (j + 1))
          rintro ⟨entries, placeholders, index'⟩
          exact ⟨_, rfl⟩

theorem condition_isOk_eq {T : Type} [Serialize T] (c : Condition T)
    (key kp : String) (i : Nat) :
    exceptIsOk (c.get_expression key kp i) = c.operands.all encOk := by
  cases c with
  | BeginsWith p => rfl
  | Between v1 v2 =>
      simp only [Condition.get_expression, Condition.operands]
      cases h1 : to_attribute_value v1 with
      | error e =>
          have hv : encOk v1 = false := by rw [encOk, h1]
          simp [h1, Bind.bind, Except.bind, exceptIsOk, hv]
      | ok a1 =>
          have hv1 : encOk v1 = true := by rw [encOk, h1]
          cases h2 : to_attribute_value v2 with
          | error e =>
              have hv : encOk v2 = false := by rw [encOk, h2]
              simp [h1, h2, Bind.bind, Except.bind, exceptIsOk, hv]
          | ok a2 =>
              have hv2 : encOk v2 = true := by rw [encOk, h2]
              simp [h1, h2, Bind.bind, Except.bind, exceptIsOk, hv1, hv2]
  | Contains v =>
      simp only [Condition.get_expression, Condition.operands]
      cases h1 : to_attribute_value v with
      | error e =>
          have hv : encOk v = false := by rw [encOk, h1]
          simp [h1, Bind.bind, Except.bind, exceptIsOk, hv]
      | ok a =>
          have hv : encOk v = true := by rw [encOk, h1]
          simp [h1, Bind.bind, Except.bind, exceptIsOk, hv]
  | Equals v =>
      simp only [Condition.get_expression, Condition.operands]
      cases h1 : to_attribute_value v with
      | error e =>
          have hv : encOk v = false := by rw [encOk, h1]
          simp [h1, Bind.bind, Except.bind, exceptIsOk, hv]
      | ok a =>
          have hv : encOk v = true := by rw [encOk, h1]
          simp [h1, Bind.bind, Except.bind, exceptIsOk, hv]
  | GreaterThan v =>
      simp only [Condition.get_expression, Condition.operands]
      cases h1 : to_attribute_value v with
      | error e =>
          have hv : encOk v = false := by rw [encOk, h1]
          simp [h1, Bind.bind, Except.bind, exceptIsOk, hv]
      | ok a =>
          have hv : encOk v = true := by rw [encOk, h1]
          simp [h1, Bind.bind, Except.bind, exceptIsOk, hv]
  | GreaterThanOrEqual v =>
      simp only [Condition.get_expression, Condition.operands]
      cases h1 : to_attribute_value v with
      | error e =>
          have hv : encOk v = false := by rw [encOk, h1]
          simp [h1, Bind.bind, Except.bind, exceptIsOk, hv]
      | ok a =>
          have hv : encOk v = true := by rw [encOk, h1]
          simp [h1, Bind.bind, Except.bind, exceptIsOk, hv]
  | In vs =>
      simp only [Condition.get_expression, Condition.operands]
      refine Eq.trans (isOk_bind_of_total ?_) (inLoop_isOk_eq key vs i 0)
      rintro ⟨entries, placeholders, index'⟩
      exact ⟨_, rfl⟩
  | LessThan v =>
      simp only [Condition.get_expression, Condition.operands]
      cases h1 : to_attribute_value v with
      | error e =>
          have hv : encOk v = false := by rw [encOk, h1]
          simp [h1, Bind.bind, Except.bind, exceptIsOk, hv]
      | ok a =>
          have hv : encOk v = true := by rw [encOk, h1]
          simp [h1, Bind.bind, Except.bind, exceptIsOk, hv]
  | LessThanOrEqual v =>
      simp only [Condition.get_expression, Condition.operands]
      cases h1 : to_attribute_value v with
      | error e =>
          have hv : encOk v = false := by rw [encOk, h1]
          simp [h1, Bind.bind, Except.bind, exceptIsOk, hv]
      | ok a =>
          have hv : encOk v = true := by rw [encOk, h1]
          simp [h1, Bind.bind, Except.bind, exceptIsOk, hv]
  | NotContains v =>
      simp only [Condition.get_expression, Condition.operands]
      cases h1 : to_attribute_value v with
      | error e =>
          have hv : encOk v = false := by rw [encOk, h1]
          simp [h1, Bind.bind, Except.bind, exceptIsOk, hv]
      | ok a =>
          have hv : encOk v = true := by rw [encOk, h1]
          simp [h1, Bind.bind, Except.bind, exceptIsOk, hv]
  | NotEqual v =>
      simp only [Condition.get_expression, Condition.operands]
      cases h1 : to_attribute_value v with
      | error e =>
          have hv : encOk v = false := by rw [encOk, h1]
          simp [h1, Bind.bind, Except.bind, exceptIsOk, hv]
      | ok a =>
          have hv : encOk v = true := by rw [encOk, h1]
          simp [h1, Bind.bind, Except.bind, exceptIsOk, hv]
  | NotNull => rfl
  | Null => rfl

theorem leaves_ops_isOk_eq {T : Type} [Serialize T] :
    ∀ (cs : List (KeyCondition T)) (keys : List String) (i : Nat),
      exceptIsOk (leaves_operations cs keys i) =
        cs.all (fun kc => kc.condition.operands.all encOk) := by
  intro cs
  induction cs with
  | nil => intro keys i; rfl
  | cons kc rest ih =>
      intro keys i
      simp only [leaves_operations, add_placeholder]
      rw [List.all_cons]
      cases hc : kc.condition.get_expression kc.name
          (joinSep "." (keys ++ ["#" ++ kc.name])) i with
      | error e =>
          have hf : kc.condition.operands.all encOk = false := by
            rw [← condition_isOk_eq kc.condition kc.name
              (joinSep "." (keys ++ ["#" ++ kc.name])) i, hc]
            rfl
          rw [hf]
          simp [Bind.bind, Except.bind, exceptIsOk]
      | ok trip =>
          obtain ⟨e, vals, i'⟩ := trip
          have hf : kc.condition.operands.all encOk = true := by
            rw [← condition_isOk_eq kc.condition kc.name
              (joinSep "." (keys ++ ["#" ++ kc.name])) i, hc]
            rfl
          rw [hf, Bool.true_and]
          simp only [Bind.bind, Except.bind]
          refine Eq.trans (isOk_bind_of_total ?_) (ih keys i')
          rintro ⟨ops, i''⟩
          exact ⟨_, rfl⟩

mutual

theorem cond_map_isOk_eq {T : Type} [Serialize T] :
    ∀ (t : ConditionMap T) (keys : List String) (i : Nat) (b : Bool),
      exceptIsOk (t.get_expression_operation_recursive keys i b) = t.allOk
  | .Leaves operator cs, keys, i, b => by
      simp only [ConditionMap.get_expression_operation_recursive,
        ConditionMap.allOk]
      refine Eq.trans (isOk_bind_of_total ?_) (leaves_ops_isOk_eq cs keys i)
      rintro ⟨ops, i'⟩
      exact ⟨_, rfl⟩
  | .Node operator m, keys, i, b => by
      simp only [ConditionMap.get_expression_operation_recursive,
        ConditionMap.allOk]
      refine Eq.trans (isOk_bind_of_total ?_)
        (node_ops_isOk_eq m keys i (b || decide (m.length > 1)))
      rintro ⟨ops, i'⟩
      exact ⟨_, rfl⟩

theorem node_ops_isOk_eq {T : Type} [Serialize T] :
    ∀ (l : List (String × ConditionMap T)) (keys : List String) (i : Nat)
      (b : Bool),
      exceptIsOk (node_operations l keys i b) = condChildrenOk l
  | [], keys, i, b => rfl
  | (k, v) :: rest, keys, i, b => by
      simp only [node_operations, add_placeholder, condChildrenOk]
      cases hc : v.get_expression_operation_recursive (keys ++ ["#" ++ k]) i b with
      | error e =>
          have hf : v.allOk = false := by
            rw [← cond_map_isOk_eq v (keys ++ ["#" ++ k]) i b, hc]
            rfl
          rw [hf]
          simp [Bind.bind, Except.bind, exceptIsOk]
      | ok pair =>
          obtain ⟨childOp, i'⟩ := pair
          have hf : v.allOk = true := by
            rw [← cond_map_isOk_eq v (keys ++ ["#" ++ k]) i b, hc]
            rfl
          rw [hf, Bool.true_and]
          simp only [Bind.bind, Except.bind]
          refine Eq.trans (isOk_bind_of_total ?_) (node_ops_isOk_eq rest keys i' b)
          rintro ⟨ops, i''⟩
          exact ⟨_, rfl⟩

end

theorem inLoop_error {T : Type} [Serialize T] (key : String) :
    ∀ (vs : List T) (i j : Nat) (e : String),
      inLoop key vs i j = .error e →
      ∃ v ∈ vs, to_attribute_value v = .error e := by
  intro vs
  induction vs with
  | nil =>
      intro i j e h
      simp only [inLoop] at h
      cases h
  | cons v rest ih =>
      intro i j e h
      simp only [inLoop] at h
      rcases bind_error_iff.mp h with herr | ⟨a, ha, h2⟩
      · exact ⟨v, by simp, herr⟩
      · rcases bind_error_iff.mp h2 with herr2 | ⟨trip, htrip, habs⟩
        · obtain ⟨v', hv', henc⟩ := ih (i + 1) (j + 1) e herr2
          exact ⟨v', by simp [hv'], henc⟩
        · obtain ⟨entries, placeholders, index'⟩ := trip
          cases habs

theorem condition_error {T : Type} [Serialize T] (c : Condition T)
    (key kp : String) (i : Nat) (e : String)
    (h : c.get_expression key kp i = .error e) :
    ∃ v ∈ c.operands, to_attribute_value v = .error e := by
  cases c with
  | BeginsWith p => cases h
  | Between v1 v2 =>
      simp only [Condition.get_expression] at h
      rcases bind_error_iff.mp h with herr | ⟨a1, ha1, h2⟩
      · exact ⟨v1, by simp [Condition.operands], herr⟩
      · rcases bind_error_iff.mp h2 with herr2 | ⟨a2, ha2, habs⟩
        · exact ⟨v2, by simp [Condition.operands], herr2⟩
        · cases habs
  | Contains v =>
      simp only [Condition.get_expression] at h
      rcases bind_error_iff.mp h with herr | ⟨a, ha, habs⟩
      · exact ⟨v, by simp [Condition.operands], herr⟩
      · cases habs
  | Equals v =>
      simp only [Condition.get_expression] at h
      rcases bind_error_iff.mp h with herr | ⟨a, ha, habs⟩
      · exact ⟨v, by simp [Condition.operands], herr⟩
      · cases habs
  | GreaterThan v =>
      simp only [Condition.get_expression] at h
      rcases bind_error_iff.mp h with herr | ⟨a, ha, habs⟩
      · exact ⟨v, by simp [Condition.operands], herr⟩
      · cases habs
  | GreaterThanOrEqual v =>
      simp only [Condition.get_expression] at h
      rcases bind_error_iff.mp h with herr | ⟨a, ha, habs⟩
      · exact ⟨v, by simp [Condition.operands], herr⟩
      · cases habs
  | In vs =>
      simp only [Condition.get_expression] at h
      rcases bind_error_iff.mp h with herr | ⟨trip, htrip, habs⟩
      · exact inLoop_error key vs i 0 e herr
      · obtain ⟨entries, placeholders, index'⟩ := trip
        cases habs
  | LessThan v =>
      simp only [Condition.get_expression] at h
      rcases bind_error_iff.mp h with herr | ⟨a, ha, habs⟩
      · exact ⟨v, by simp [Condition.operands], herr⟩
      · cases habs
  | LessThanOrEqual v =>
      simp only [Condition.get_expression] at h
      rcases bind_error_iff.mp h with herr | ⟨a, ha, habs⟩
      · exact ⟨v, by simp [Condition.operands], herr⟩
      · cases habs
  | NotContains v =>
      simp only [Condition.get_expression] at h
      rcases bind_error_iff.mp h with herr | ⟨a, ha, habs⟩
      · exact ⟨v, by simp [Condition.operands], herr⟩
      · cases habs
  | NotEqual v =>
      simp only [Condition.get_expression] at h
      rcases bind_error_iff.mp h with herr | ⟨a, ha, habs⟩
      · exact ⟨v, by simp [Condition.operands], herr⟩
      · cases habs
  | NotNull => cases h
  | Null => cases h

theorem leaves_ops_error {T : Type} [Serialize T] :
    ∀ (cs : List (KeyCondition T)) (keys : List String) (i : Nat) (e : String),
      leaves_operations cs keys i = .error e →
      ∃ v ∈ (cs.map (fun kc => kc.condition.operands)).flatten,
        to_attribute_value v = .error e := by
  intro cs
  induction cs with
  | nil =>
      intro keys i e h
      simp only [leaves_operations] at h
      cases h
  | cons kc rest ih =>
      intro keys i e h
      simp only [leaves_operations, add_placeholder] at h
      rcases bind_error_iff.mp h with herr | ⟨trip, htrip, h2⟩
      · obtain ⟨v, hv, henc⟩ := condition_error kc.condition kc.name _ i e herr
        refine ⟨v, ?_, henc⟩
        rw [List.map_cons, List.flatten_cons, List.mem_append]
        exact .inl hv
      · obtain ⟨ex, vals, i'⟩ := trip
        rcases bind_error_iff.mp h2 with herr2 | ⟨pair, hpair, habs⟩
        · obtain ⟨v, hv, henc⟩ := ih keys i' e herr2
          refine ⟨v, ?_, henc⟩
          rw [List.map_cons, List.flatten_cons, List.mem_append]
          exact .inr hv
        · obtain ⟨ops, i''⟩ := pair
          cases habs

mutual

theorem cond_map_error {T : Type} [Serialize T] :
    ∀ (t : ConditionMap T) (keys : List String) (i : Nat) (b : Bool) (e : String),
      t.get_expression_operation_recursive keys i b = .error e →
      ∃ v ∈ t.operandsList, to_attribute_value v = .error e
  | .Leaves operator cs, keys, i, b, e, h => by
      simp only [ConditionMap.get_expression_operation_recursive] at h
      rcases bind_error_iff.mp h with herr | ⟨pair, hpair, habs⟩
      · exact leaves_ops_error cs keys i e herr
      · obtain ⟨ops, i'⟩ := pair
        cases habs
  | .Node operator m, keys, i, b, e, h => by
      simp only [ConditionMap.get_expression_operation_recursive] at h
      rcases bind_error_iff.mp h with herr | ⟨pair, hpair, habs⟩
      · exact node_ops_error m keys i _ e herr
      · obtain ⟨ops, i'⟩ := pair
        cases habs

theorem node_ops_error {T : Type} [Serialize T] :
    ∀ (l : List (String × ConditionMap T)) (keys : List String) (i : Nat)
      (b : Bool) (e : String),
      node_operations l keys i b = .error e →
      ∃ v ∈ condChildrenOperands l, to_attribute_value v = .error e
  | [], keys, i, b, e, h => by
      simp only [node_operations] at h
      cases h
  | (k, v) :: rest, keys, i, b, e, h => by
      simp only [node_operations, add_placeholder] at h
      rcases bind_error_iff.mp h with herr | ⟨pair1, hchild, h2⟩
      · obtain ⟨w, hw, henc⟩ := cond_map_error v _ i b e herr
        refine ⟨w, ?_, henc⟩
        rw [condChildrenOperands, List.mem_append]
        exact .inl hw
      · obtain ⟨childOp, i'⟩ := pair1
        rcases bind_error_iff.mp h2 with herr2 | ⟨pair2, hrest, habs⟩
        · obtain ⟨w, hw, henc⟩ := node_ops_error rest keys i' b e herr2
          refine ⟨w, ?_, henc⟩
          rw [condChildrenOperands, List.mem_append]
          exact .inr hw
        · obtain ⟨ops, i''⟩ := pair2
          cases habs

end

theorem aod_leaves_isOk_eq {T : Type} [Serialize T] :
    ∀ (ls : List (String × T)) (keys : List String) (i : Nat),
      exceptIsOk (add_or_delete_leaves ls keys i) =
        ls.all (fun kv => encOk kv.2) := by
  intro ls
  induction ls with
  | nil => intro keys i; rfl
  | cons kv rest ih =>
      intro keys i
      obtain ⟨key, value⟩ := kv
      simp only [add_or_delete_leaves, add_placeholder]
      rw [List.all_cons]
      cases henc : to_attribute_value value with
      | error e =>
          have hv : encOk value = false := by rw [encOk, henc]
          rw [hv]
          simp [henc, Bind.bind, Except.bind, exceptIsOk]
      | ok a =>
          have hv : encOk value = true := by rw [encOk, henc]
          rw [hv, Bool.true_and]
          simp only [henc, Bind.bind, Except.bind]
          refine Eq.trans (isOk_bind_of_total ?_) (ih keys (i + 1))
          rintro ⟨ops, i'⟩
          exact ⟨_, rfl⟩

mutual

theorem aod_map_isOk_eq {T : Type} [Serialize T] :
    ∀ (m : AddOrDeleteInputsMap T) (keys : List String) (i : Nat),
      exceptIsOk (m.get_add_or_delete_expression_recursive keys i) = m.allOk
  | .Leaves ls, keys, i => by
      simp only [AddOrDeleteInputsMap.get_add_or_delete_expression_recursive,
        AddOrDeleteInputsMap.allOk]
      refine Eq.trans (isOk_bind_of_total ?_) (aod_leaves_isOk_eq ls keys i)
      rintro ⟨ops, i'⟩
      exact ⟨_, rfl⟩
  | .Node m, keys, i => by
      simp only [AddOrDeleteInputsMap.get_add_or_delete_expression_recursive,
        AddOrDeleteInputsMap.allOk]
      refine Eq.trans (isOk_bind_of_total ?_) (aod_children_isOk_eq m keys i)
      rintro ⟨ops, i'⟩
      exact ⟨_, rfl⟩

theorem aod_children_isOk_eq {T : Type} [Serialize T] :
    ∀ (l : List (String × AddOrDeleteInputsMap T)) (keys : List String)
      (i : Nat),
      exceptIsOk (add_or_delete_children l keys i) = aodChildrenOk l
  | [], keys, i => rfl
  | (k, v) :: rest, keys, i => by
      simp only [add_or_delete_children, add_placeholder, aodChildrenOk]
      cases hc : v.get_add_or_delete_expression_recursive (keys ++ ["#" ++ k]) i with
      | error e =>
          have hf : v.allOk = false := by
            rw [← aod_map_isOk_eq v (keys ++ ["#" ++ k]) i, hc]
            rfl
          rw [hf]
          simp [Bind.bind, Except.bind, exceptIsOk]
      | ok pair =>
          obtain ⟨childOp, i'⟩ := pair
          have hf : v.allOk = true := by
            rw [← aod_map_isOk_eq v (keys ++ ["#" ++ k]) i, hc]
            rfl
          rw [hf, Bool.true_and]
          simp only [Bind.bind, Except.bind]
          refine Eq.trans (isOk_bind_of_total ?_) (aod_children_isOk_eq rest keys i')
          rintro ⟨ops, i''⟩
          exact ⟨_, rfl⟩

end

theorem set_leaves_isOk_eq {T : Type} [Serialize T] :
    ∀ (ls : List (String × SetInput T)) (keys : List String) (i : Nat),
      exceptIsOk (set_leaves ls keys i) =
        ls.all (fun kv => encOk kv.2.operand) := by
  intro ls
  induction ls with
  | nil => intro keys i; rfl
  | cons kv rest ih =>
      intro keys i
      obtain ⟨key, set_operation⟩ := kv
      simp only [set_leaves, add_placeholder]
      rw [List.all_cons]
      obtain ⟨value, expression, hse⟩ :
          ∃ a b, set_operation.get_set_expression
            (joinSep PATH_SEPARATOR (keys ++ ["#" ++ key]))
            (":set" ++ fmtNat i) = (a, b) := ⟨_, _, rfl⟩
      rw [hse]
      have hval : value = set_operation.operand := by
        rw [← get_set_expression_fst set_operation
          (joinSep PATH_SEPARATOR (keys ++ ["#" ++ key])) (":set" ++ fmtNat i), hse]
      cases henc : to_attribute_value value with
      | error e =>
          have hv : encOk set_operation.operand = false := by
            rw [encOk, ← hval, henc]
          rw [hv]
          simp [henc, Bind.bind, Except.bind, exceptIsOk]
      | ok a =>
          have hv : encOk set_operation.operand = true := by
            rw [encOk, ← hval, henc]
          rw [hv, Bool.true_and]
          simp only [henc, Bind.bind, Except.bind]
          refine Eq.trans (isOk_bind_of_total ?_) (ih keys (i + 1))
          rintro ⟨ops, i'⟩
          exact ⟨_, rfl⟩

mutual

theorem set_map_isOk_eq {T : Type} [Serialize T] :
    ∀ (m : SetInputsMap T) (keys : List String) (i : Nat),
      exceptIsOk (m.get_set_expression_recursive keys i) = m.allOk
  | .Leaves ls, keys, i => by
      simp only [SetInputsMap.get_set_expression_recursive, SetInputsMap.allOk]
      refine Eq.trans (isOk_bind_of_total ?_) (set_leaves_isOk_eq ls keys i)
      rintro ⟨ops, i'⟩
      exact ⟨_, rfl⟩
  | .Node m, keys, i => by
      simp only [SetInputsMap.get_set_expression_recursive, SetInputsMap.allOk]
      refine Eq.trans (isOk_bind_of_total ?_) (set_children_isOk_eq m keys i)
      rintro ⟨ops, i'⟩
      exact ⟨_, rfl⟩

theorem set_children_isOk_eq {T : Type} [Serialize T] :
    ∀ (l : List (String × SetInputsMap T)) (keys : List String) (i : Nat),
      exceptIsOk (set_children l keys i) = setChildrenOk l
  | [], keys, i => rfl
  | (k, v) :: rest, keys, i => by
      simp only [set_children, add_placeholder, setChildrenOk]
      cases hc : v.get_set_expression_recursive (keys ++ ["#" ++ k]) i with
      | error e =>
          have hf : v.allOk = false := by
            rw [← set_map_isOk_eq v (keys ++ ["#" ++ k]) i, hc]
            rfl
          rw [hf]
          simp [Bind.bind, Except.bind, exceptIsOk]
      | ok pair =>
          obtain ⟨childOp, i'⟩ := pair
          have hf : v.allOk = true := by
            rw [← set_map_isOk_eq v (keys ++ ["#" ++ k]) i, hc]
            rfl
          rw [hf, Bool.true_and]
          simp only [Bind.bind, Except.bind]
          refine Eq.trans (isOk_bind_of_total ?_) (set_children_isOk_eq rest keys i')
          rintro ⟨ops, i''⟩
          exact ⟨_, rfl⟩

end

mutual

theorem update_map_isOk_eq {T : Type} [Serialize T] :
    ∀ (u : UpdateExpressionMap T) (keys : List String) (i : Nat),
      exceptIsOk (u.get_update_expression_recursive keys i) = u.allOk
  | .Add m, keys, i => by
      simp only [UpdateExpressionMap.get_update_expression_recursive,
        UpdateExpressionMap.allOk]
      refine Eq.trans (isOk_bind_of_total ?_) (aod_map_isOk_eq m keys i)
      rintro ⟨o, i'⟩
      exact ⟨_, rfl⟩
  | .Delete m, keys, i => by
      simp only [UpdateExpressionMap.get_update_expression_recursive,
        UpdateExpressionMap.allOk]
      refine Eq.trans (isOk_bind_of_total ?_) (aod_map_isOk_eq m keys i)
      rintro ⟨o, i'⟩
      exact ⟨_, rfl⟩
  | .Remove m, keys, i => rfl
  | .Set m, keys, i => by
      simp only [UpdateExpressionMap.get_update_expression_recursive,
        UpdateExpressionMap.allOk]
      refine Eq.trans (isOk_bind_of_total ?_) (set_map_isOk_eq m keys i)
      rintro ⟨o, i'⟩
      exact ⟨_, rfl⟩
  | .Combined l, keys, i => by
      simp only [UpdateExpressionMap.get_update_expression_recursive,
        UpdateExpressionMap.allOk]
      refine Eq.trans (isOk_bind_of_total ?_) (combined_loop_isOk_eq l keys i)
      rintro ⟨ops, i'⟩
      exact ⟨_, rfl⟩

theorem combined_loop_isOk_eq {T : Type} [Serialize T] :
    ∀ (l : List (UpdateExpressionMap T)) (keys : List String) (i : Nat),
      exceptIsOk (combined_loop l keys i) = combinedAllOk l
  | [], keys, i => rfl
  | u :: rest, keys, i => by
      simp only [combined_loop, combinedAllOk]
      cases hc : u.get_update_expression_recursive keys i with
      | error e =>
          have hf : u.allOk = false := by
            rw [← update_map_isOk_eq u keys i, hc]
            rfl
          rw [hf]
          simp [Bind.bind, Except.bind, exceptIsOk]
      | ok pair =>
          obtain ⟨childOp, i'⟩ := pair
          have hf : u.allOk = true := by
            rw [← update_map_isOk_eq u keys i, hc]
            rfl
          rw [hf, Bool.true_and]
          simp only [Bind.bind, Except.bind]
          refine Eq.trans (isOk_bind_of_total ?_) (combined_loop_isOk_eq rest keys i')
          rintro ⟨ops, i''⟩
          exact ⟨_, rfl⟩

end

theorem aod_leaves_error {T : Type} [Serialize T] :
    ∀ (ls : List (String × T)) (keys : List String) (i : Nat) (e : String),
      add_or_delete_leaves ls keys i = .error e →
      ∃ v ∈ ls.map (fun kv => kv.2), to_attribute_value v = .error e := by
  intro ls
  induction ls with
  | nil =>
      intro keys i e h
      simp only [add_or_delete_leaves] at h
      cases h
  | cons kv rest ih =>
      intro keys i e h
      obtain ⟨key, value⟩ := kv
      simp only [add_or_delete_leaves, add_placeholder] at h
      rcases bind_error_iff.mp h with herr | ⟨a, ha, h2⟩
      · exact ⟨value, by simp, herr⟩
      · rcases bind_error_iff.mp h2 with herr2 | ⟨pair, hpair, habs⟩
        · obtain ⟨v, hv, henc⟩ := ih keys (i + 1) e herr2
          exact ⟨v, by simp only [List.map_cons, List.mem_cons]; exact .inr hv, henc⟩
        · obtain ⟨ops, i'⟩ := pair
          cases habs

theorem set_leaves_error {T : Type} [Serialize T] :
    ∀ (ls : List (String × SetInput T)) (keys : List String) (i : Nat)
      (e : String),
      set_leaves ls keys i = .error e →
      ∃ v ∈ ls.map (fun kv => kv.2.operand), to_attribute_value v = .error e := by
  intro ls
  induction ls with
  | nil =>
      intro keys i e h
      simp only [set_leaves] at h
      cases h
  | cons kv rest ih =>
      intro keys i e h
      obtain ⟨key, set_operation⟩ := kv
      simp only [set_leaves, add_placeholder] at h
      obtain ⟨value, expression, hse⟩ :
          ∃ a b, set_operation.get_set_expression
            (joinSep PATH_SEPARATOR (keys ++ ["#" ++ key]))
            (":set" ++ fmtNat i) = (a, b) := ⟨_, _, rfl⟩
      rw [hse] at h
      have hval : value = set_operation.operand := by
        rw [← get_set_expression_fst set_operation
          (joinSep PATH_SEPARATOR (keys ++ ["#" ++ key])) (":set" ++ fmtNat i), hse]
      rcases bind_error_iff.mp h with herr | ⟨a, ha, h2⟩
      · exact ⟨set_operation.operand, by simp, hval ▸ herr⟩
      · rcases bind_error_iff.mp h2 with herr2 | ⟨pair, hpair, habs⟩
        · obtain ⟨v, hv, henc⟩ := ih keys (i + 1) e herr2
          exact ⟨v, by simp only [List.map_cons, List.mem_cons]; exact .inr hv, henc⟩
        · obtain ⟨ops, i'⟩ := pair
          cases habs

mutual

theorem aod_map_error {T : Type} [Serialize T] :
    ∀ (m : AddOrDeleteInputsMap T) (keys : List String) (i : Nat) (e : String),
      m.get_add_or_delete_expression_recursive keys i = .error e →
      ∃ v ∈ m.operandsList, to_attribute_value v = .error e
  | .Leaves ls, keys, i, e, h => by
      simp only [AddOrDeleteInputsMap.get_add_or_delete_expression_recursive] at h
      rcases bind_error_iff.mp h with herr | ⟨pair, hpair, habs⟩
      · exact aod_leaves_error ls keys i e herr
      · obtain ⟨ops, i'⟩ := pair
        cases habs
  | .Node m, keys, i, e, h => by
      simp only [AddOrDeleteInputsMap.get_add_or_delete_expression_recursive] at h
      rcases bind_error_iff.mp h with herr | ⟨pair, hpair, habs⟩
      · exact aod_children_error m keys i e herr
      · obtain ⟨ops, i'⟩ := pair
        cases habs

theorem aod_children_error {T : Type} [Serialize T] :
    ∀ (l : List (String × AddOrDeleteInputsMap T)) (keys : List String)
      (i : Nat) (e : String),
      add_or_delete_children l keys i = .error e →
      ∃ v ∈ aodChildrenOperands l, to_attribute_value v = .error e
  | [], keys, i, e, h => by
      simp only [add_or_delete_children] at h
      cases h
  | (k, v) :: rest, keys, i, e, h => by
      simp only [add_or_delete_children, add_placeholder] at h
      rcases bind_error_iff.mp h with herr | ⟨pair1, hchild, h2⟩
      · obtain ⟨w, hw, henc⟩ := aod_map_error v _ i e herr
        refine ⟨w, ?_, henc⟩
        rw [aodChildrenOperands, List.mem_append]
        exact .inl hw
      · obtain ⟨childOp, i'⟩ := pair1
        rcases bind_error_iff.mp h2 with herr2 | ⟨pair2, hrest, habs⟩
        · obtain ⟨w, hw, henc⟩ := aod_children_error rest keys i' e herr2
          refine ⟨w, ?_, henc⟩
          rw [aodChildrenOperands, List.mem_append]
          exact .inr hw
        · obtain ⟨ops, i''⟩ := pair2
          cases habs

end

mutual

theorem set_map_error {T : Type} [Serialize T] :
    ∀ (m : SetInputsMap T) (keys : List String) (i : Nat) (e : String),
      m.get_set_expression_recursive keys i = .error e →
      ∃ v ∈ m.operandsList, to_attribute_value v = .error e
  | .Leaves ls, keys, i, e, h => by
      simp only [SetInputsMap.get_set_expression_recursive] at h
      rcases bind_error_iff.mp h with herr | ⟨pair, hpair, habs⟩
      · exact set_leaves_error ls keys i e herr
      · obtain ⟨ops, i'⟩ := pair
        cases habs
  | .Node m, keys, i, e, h => by
      simp only [SetInputsMap.get_set_expression_recursive] at h
      rcases bind_error_iff.mp h with herr | ⟨pair, hpair, habs⟩
      · exact set_children_error m keys i e herr
      · obtain ⟨ops, i'⟩ := pair
        cases habs

theorem set_children_error {T : Type} [Serialize T] :
    ∀ (l : List (String × SetInputsMap T)) (keys : List String) (i : Nat)
      (e : String),
      set_children l keys i = .error e →
      ∃ v ∈ setChildrenOperands l, to_attribute_value v = .error e
  | [], keys, i, e, h => by
      simp only [set_children] at h
      cases h
  | (k, v) :: rest, keys, i, e, h => by
      simp only [set_children, add_placeholder] at h
      rcases bind_error_iff.mp h with herr | ⟨pair1, hchild, h2⟩
      · obtain ⟨w, hw, henc⟩ := set_map_error v _ i e herr
        refine ⟨w, ?_, henc⟩
        rw [setChildrenOperands, List.mem_append]
        exact .inl hw
      · obtain ⟨childOp, i'⟩ := pair1
        rcases bind_error_iff.mp h2 with herr2 | ⟨pair2, hrest, habs⟩
        · obtain ⟨w, hw, henc⟩ := set_children_error rest keys i' e herr2
          refine ⟨w, ?_, henc⟩
          rw [setChildrenOperands, List.mem_append]
          exact .inr hw
        · obtain ⟨ops, i''⟩ := pair2
          cases habs

end

mutual

theorem update_map_error {T : Type} [Serialize T] :
    ∀ (u : UpdateExpressionMap T) (keys : List String) (i : Nat) (e : String),
      u.get_update_expression_recursive keys i = .error e →
      ∃ v ∈ u.operandsList, to_attribute_value v = .error e
  | .Add m, keys, i, e, h => by
      simp only [UpdateExpressionMap.get_update_expression_recursive] at h
      rcases bind_error_iff.mp h with herr | ⟨pair, hpair, habs⟩
      · exact aod_map_error m keys i e herr
      · obtain ⟨o, i'⟩ := pair
        cases habs
  | .Delete m, keys, i, e, h => by
      simp only [UpdateExpressionMap.get_update_expression_recursive] at h
      rcases bind_error_iff.mp h with herr | ⟨pair, hpair, habs⟩
      · exact aod_map_error m keys i e herr
      · obtain ⟨o, i'⟩ := pair
        cases habs
  | .Remove m, keys, i, e, h => by
      simp only [UpdateExpressionMap.get_update_expression_recursive] at h
      cases h
  | .Set m, keys, i, e, h => by
      simp only [UpdateExpressionMap.get_update_expression_recursive] at h
      rcases bind_error_iff.mp h with herr | ⟨pair, hpair, habs⟩
      · exact set_map_error m keys i e herr
      · obtain ⟨o, i'⟩ := pair
        cases habs
  | .Combined l, keys, i, e, h => by
      simp only [UpdateExpressionMap.get_update_expression_recursive] at h
      rcases bind_error_iff.mp h with herr | ⟨pair, hpair, habs⟩
      · exact combined_loop_error l keys i e herr
      · obtain ⟨ops, i'⟩ := pair
        cases habs

theorem combined_loop_error {T : Type} [Serialize T] :
    ∀ (l : List (UpdateExpressionMap T)) (keys : List String) (i : Nat)
      (e : String),
      combined_loop l keys i = .error e →
      ∃ v ∈ combinedOperands l, to_attribute_value v = .error e
  | [], keys, i, e, h => by
      simp only [combined_loop] at h
      cases h
  | u :: rest, keys, i, e, h => by
      simp only [combined_loop] at h
      rcases bind_error_iff.mp h with herr | ⟨pair1, hchild, h2⟩
      · obtain ⟨w, hw, henc⟩ := update_map_error u keys i e herr
        refine ⟨w, ?_, henc⟩
        rw [combinedOperands, List.mem_append]
        exact .inl hw
      · obtain ⟨childOp, i'⟩ := pair1
        rcases bind_error_iff.mp h2 with herr2 | ⟨pair2, hrest, habs⟩
        · obtain ⟨w, hw, henc⟩ := combined_loop_error rest keys i' e herr2
          refine ⟨w, ?_, henc⟩
          rw [combinedOperands, List.mem_append]
          exact .inr hw
        · obtain ⟨ops, i''⟩ := pair2
          cases habs

end

/-! Selection compiler: the expression text is the `", "`-join of the
`.`-joined placeholder paths of all leaves in depth-first insertion order. -/

theorem hash_ne_empty (s : String) : "#" ++ s ≠ "" := by
  rw [str_ne_empty_iff, String.data_append]
  simp

theorem joinSep_concat_ne (sep : String) :
    ∀ (l : List String) (p : String), p ≠ "" → joinSep sep (l ++ [p]) ≠ "" := by
  intro l
  induction l with
  | nil => intro p hp; exact hp
  | cons x t ih =>
      intro p hp
      have ht : t ++ [p] ≠ [] := by simp
      obtain ⟨y, yt, hyt⟩ : ∃ y yt, t ++ [p] = y :: yt := by
        cases hcase : t ++ [p] with
        | nil => exact absurd hcase ht
        | cons y yt => exact ⟨y, yt, rfl⟩
      rw [List.cons_append, hyt, joinSep_cons_cons, ← hyt]
      exact append_ne_empty_of_right (ih p hp)

theorem joinSep_ne_empty (sep : String) :
    ∀ (l : List String), l ≠ [] → (∀ x ∈ l, x ≠ "") → joinSep sep l ≠ "" := by
  intro l
  induction l with
  | nil => intro h; exact absurd rfl h
  | cons x t ih =>
      intro _ hall
      cases t with
      | nil => exact hall x (by simp)
      | cons y yt =>
          rw [joinSep_cons_cons]
          exact append_ne_empty_of_right (ih (by simp) (fun z hz => hall z (by simp [hz])))

theorem joinSep_append_ne_ne (sep : String) :
    ∀ (a b : List String), a ≠ [] → b ≠ [] →
      joinSep sep (a ++ b) = joinSep sep a ++ sep ++ joinSep sep b := by
  intro a
  induction a with
  | nil => intro b h; exact absurd rfl h
  | cons x t ih =>
      intro b _ hb
      obtain ⟨y, yt, hyt⟩ : ∃ y yt, b = y :: yt := by
        cases hcase : b with
        | nil => exact absurd hcase hb
        | cons y yt => exact ⟨y, yt, rfl⟩
      cases t with
      | nil =>
          rw [List.singleton_append, hyt, joinSep_cons_cons, joinSep]
      | cons z zt =>
          have htb : (z :: zt) ++ b ≠ [] := by simp
          obtain ⟨w, wt, hwt⟩ : ∃ w wt, (z :: zt) ++ b = w :: wt := by
            cases hcase : (z :: zt) ++ b with
            | nil => exact absurd hcase htb
            | cons w wt => exact ⟨w, wt, rfl⟩
          rw [List.cons_append, hwt, joinSep_cons_cons, ← hwt,
            ih b (by simp) hb, joinSep_cons_cons]
          simp [String.append_assoc]

theorem get_expression_join (sep : String) (A B : List String)
    (hA : ∀ x ∈ A, x ≠ "") (hB : ∀ x ∈ B, x ≠ "") :
    get_expression (joinSep sep A) sep (joinSep sep B) = joinSep sep (A ++ B) := by
  cases A with
  | nil => rfl
  | cons xa ta =>
      have hAne : joinSep sep (xa :: ta) ≠ "" :=
        joinSep_ne_empty sep (xa :: ta) (by simp) hA
      cases B with
      | nil =>
          rw [get_expression, if_neg hAne,
            if_pos (show joinSep sep [] = "" from rfl), List.append_nil]
      | cons xb tb =>
          have hBne : joinSep sep (xb :: tb) ≠ "" :=
            joinSep_ne_empty sep (xb :: tb) (by simp) hB
          rw [get_expression, if_neg hAne, if_neg hBne]
          exact (joinSep_append_ne_ne sep (xa :: ta) (xb :: tb)
            (by simp) (by simp)).symm

theorem ge_assoc (operator a b c : String) :
    get_expression (get_expression a operator b) operator c =
      get_expression a operator (get_expression b operator c) := by
  by_cases ha : a = ""
  · subst ha
    have h1 : get_expression "" operator b = b := rfl
    have h2 : get_expression "" operator (get_expression b operator c) =
        get_expression b operator c := rfl
    rw [h1, h2]
  · by_cases hb : b = ""
    · subst hb
      have h1 : get_expression a operator "" = a := by
        rw [get_expression, if_neg ha, if_pos rfl]
      have h2 : get_expression "" operator c = c := rfl
      rw [h1, h2]
    · by_cases hc : c = ""
      · subst hc
        have hab : a ++ operator ++ b ≠ "" := append_ne_empty_of_right hb
        have h1 : get_expression a operator b = a ++ operator ++ b := by
          rw [get_expression, if_neg ha, if_neg hb]
        have h2 : get_expression (a ++ operator ++ b) operator "" =
            a ++ operator ++ b := by
          rw [get_expression, if_neg hab, if_pos rfl]
        have h3 : get_expression b operator "" = b := by
          rw [get_expression, if_neg hb, if_pos rfl]
        rw [h1, h2, h3, h1]
      · have hab : a ++ operator ++ b ≠ "" := append_ne_empty_of_right hb
        have hbc : b ++ operator ++ c ≠ "" := append_ne_empty_of_right hc
        have h1 : get_expression a operator b = a ++ operator ++ b := by
          rw [get_expression, if_neg ha, if_neg hb]
        have h4 : get_expression b operator c = b ++ operator ++ c := by
          rw [get_expression, if_neg hb, if_neg hc]
        have h2 : get_expression (a ++ operator ++ b) operator c =
            a ++ operator ++ b ++ operator ++ c := by
          rw [get_expression, if_neg hab, if_neg hc]
        have h5 : get_expression a operator (b ++ operator ++ c) =
            a ++ operator ++ (b ++ operator ++ c) := by
          rw [get_expression, if_neg ha, if_neg hbc]
        rw [h1, h2, h4, h5]
        simp [String.append_assoc]

theorem merge_expression (operator : String) (items : List ExpressionInput) :
    (ExpressionInput.merge operator items).expression =
      items.foldl (fun t o => get_expression t operator o.expression) "" := by
  rw [ExpressionInput.merge, foldl_merge_expression]

theorem foldl_ge_pull (operator : String) :
    ∀ (rest : List ExpressionInput) (a : String),
      rest.foldl (fun t o => get_expression t operator o.expression) a =
        get_expression a operator
          (rest.foldl (fun t o => get_expression t operator o.expression) "") := by
  intro rest
  induction rest with
  | nil =>
      intro a
      rw [List.foldl_nil, List.foldl_nil, get_expression]
      split
      · rename_i h
        rw [h]
      · rw [if_pos rfl]
  | cons o t ih =>
      intro a
      rw [List.foldl_cons, List.foldl_cons, ih, ih (get_expression "" operator _),
        ← ge_assoc]
      have h0 : get_expression "" operator o.expression = o.expression := rfl
      rw [h0]

theorem merge_expression_cons (operator : String) (c : ExpressionInput)
    (rest : List ExpressionInput) :
    (ExpressionInput.merge operator (c :: rest)).expression =
      get_expression c.expression operator
        (ExpressionInput.merge operator rest).expression := by
  rw [merge_expression, merge_expression, List.foldl_cons, foldl_ge_pull]
  have h0 : get_expression "" operator c.expression = c.expression := rfl
  rw [h0]

mutual

/-- Modelled from the spec: the `.`-separated placeholder paths of all leaves
of a selection tree, in depth-first insertion order, each path being the
accumulated placeholder path extended with the leaf's own placeholder. -/
def selPaths : SelectionMap → List String → List (List String)
  | .Leaves leaves, keys => leaves.map (fun leaf => keys ++ ["#" ++ leaf])
  | .Node m, keys => selPathsChildren m keys

/-- Loop form of `selPaths` over a node's children. -/
def selPathsChildren : List (String × SelectionMap) → List String → List (List String)
  | [], _ => []
  | (k, v) :: rest, keys =>
      selPaths v (keys ++ ["#" ++ k]) ++ selPathsChildren rest keys

end

mutual

theorem selPaths_text_ne :
    ∀ (s : SelectionMap) (keys : List String) (path : List String),
      path ∈ selPaths s keys → joinSep "." path ≠ ""
  | .Leaves leaves, keys, path, h => by
      simp only [selPaths, List.mem_map] at h
      obtain ⟨leaf, _, hp⟩ := h
      rw [← hp]
      exact joinSep_concat_ne "." keys ("#" ++ leaf) (hash_ne_empty leaf)
  | .Node m, keys, path, h => by
      simp only [selPaths] at h
      exact selPathsChildren_text_ne m keys path h

theorem selPathsChildren_text_ne :
    ∀ (l : List (String × SelectionMap)) (keys : List String)
      (path : List String),
      path ∈ selPathsChildren l keys → joinSep "." path ≠ ""
  | [], _, path, h => by
      simp only [selPathsChildren] at h
      cases h
  | (k, v) :: rest, keys, path, h => by
      simp only [selPathsChildren] at h
      rcases List.mem_append.mp h with hm | hm
      · exact selPaths_text_ne v (keys ++ ["#" ++ k]) path hm
      · exact selPathsChildren_text_ne rest keys path hm

end

mutual

theorem selection_expr_eq :
    ∀ (s : SelectionMap) (keys : List String),
      (s.get_selection_operation_recursive keys).expression =
        joinSep ", " ((selPaths s keys).map (joinSep "."))
  | .Leaves leaves, keys => by
      simp only [SelectionMap.get_selection_operation_recursive, selPaths,
        add_placeholder]
      rw [merge_expression_joinSep]
      · rw [List.map_map, List.map_map]
        rfl
      · intro a ha
        rw [List.mem_map] at ha
        obtain ⟨leaf, _, hfa⟩ := ha
        rw [← hfa]
        exact joinSep_concat_ne "." keys ("#" ++ leaf) (hash_ne_empty leaf)
  | .Node m, keys => by
      simp only [SelectionMap.get_selection_operation_recursive, selPaths]
      exact selection_children_expr m keys

theorem selection_children_expr :
    ∀ (l : List (String × SelectionMap)) (keys : List String),
      (ExpressionInput.merge ", " (selection_children l keys)).expression =
        joinSep ", " ((selPathsChildren l keys).map (joinSep "."))
  | [], keys => rfl
  | (k, v) :: rest, keys => by
      simp only [selection_children, selPathsChildren, add_placeholder]
      rw [merge_expression_cons]
      have hchild :
          ({ v.get_selection_operation_recursive (keys ++ ["#" ++ k]) with
            expression_attribute_names :=
              (v.get_selection_operation_recursive
                (keys ++ ["#" ++ k])).expression_attribute_names ++
                [("#" ++ k, k)] } : ExpressionInput).expression =
          (v.get_selection_operation_recursive (keys ++ ["#" ++ k])).expression :=
        rfl
      rw [hchild, selection_expr_eq v (keys ++ ["#" ++ k]),
        selection_children_expr rest keys,
        get_expression_join ", " _ _
          (by
            intro x hx
            rw [List.mem_map] at hx
            obtain ⟨path, hp, hpx⟩ := hx
            rw [← hpx]
            exact selPaths_text_ne v (keys ++ ["#" ++ k]) path hp)
          (by
            intro x hx
            rw [List.mem_map] at hx
            obtain ⟨path, hp, hpx⟩ := hx
            rw [← hpx]
            exact selPathsChildren_text_ne rest keys path hp),
        ← List.map_append]

end

theorem inLoop_keys {T : Type} [Serialize T] (key : String) :
    ∀ (vs : List T) (i j : Nat) (res : HMap AttributeValue × List String × Nat),
      inLoop key vs i j = .ok res →
      res.1.map Prod.fst =
        (List.range vs.length).map
          (fun t => ":" ++ key ++ "_in" ++ fmtNat (i + t) ++ "_" ++ fmtNat (j + t)) ∧
      res.2.1 =
        (List.range vs.length).map
          (fun t => ":" ++ key ++ "_in" ++ fmtNat (i + t) ++ "_" ++ fmtNat (j + t)) ∧
      res.2.2 = i + vs.length := by
  intro vs
  induction vs with
  | nil =>
      intro i j res h
      simp only [inLoop] at h
      injection h with h
      subst h
      simp
  | cons v rest ih =>
      intro i j res h
      simp only [inLoop] at h
      obtain ⟨av, hav, h2⟩ := bind_ok_iff.mp h
      obtain ⟨trip, htrip, hok⟩ := bind_ok_iff.mp h2
      obtain ⟨entries, phs, i'⟩ := trip
      injection hok with hok
      subst hok
      obtain ⟨hk, hp, hi⟩ := ih (i + 1) (j + 1) (entries, phs, i') htrip
      have hshift :
          (List.range rest.length).map
            (fun t => ":" ++ key ++ "_in" ++ fmtNat (i + 1 + t) ++ "_" ++
              fmtNat (j + 1 + t)) =
          (List.range rest.length).map
            ((fun t => ":" ++ key ++ "_in" ++ fmtNat (i + t) ++ "_" ++
              fmtNat (j + t)) ∘ Nat.succ) := by
        refine List.map_congr_left ?_
        intro t ht
        have e1 : i + 1 + t = i + Nat.succ t := by omega
        have e2 : j + 1 + t = j + Nat.succ t := by omega
        rw [Function.comp_apply, e1, e2]
      have hkc : entries.map Prod.fst =
          (List.range rest.length).map
            (fun t => ":" ++ key ++ "_in" ++ fmtNat (i + 1 + t) ++ "_" ++
              fmtNat (j + 1 + t)) := hk
      have hpc : phs =
          (List.range rest.length).map
            (fun t => ":" ++ key ++ "_in" ++ fmtNat (i + 1 + t) ++ "_" ++
              fmtNat (j + 1 + t)) := hp
      have hic : i' = i + 1 + rest.length := hi
      refine ⟨?_, ?_, ?_⟩
      · show (":" ++ key ++ "_in" ++ fmtNat i ++ "_" ++ fmtNat j, av).1 ::
            entries.map Prod.fst = _
        rw [List.length_cons, List.range_succ_eq_map, List.map_cons,
          List.map_map, hkc, hshift]
        rfl
      · show (":" ++ key ++ "_in" ++ fmtNat i ++ "_" ++ fmtNat j) :: phs = _
        rw [List.length_cons, List.range_succ_eq_map, List.map_cons,
          List.map_map, hpc, hshift]
        rfl
      · show i' = i + (rest.length + 1)
        omega

/-- Variants that never submit an operand to the value encoder. -/
def Condition.needsNoEncoding {T : Type} : Condition T → Bool
  | .BeginsWith _ => true
  | .NotNull => true
  | .Null => true
  | _ => false

mutual

/-- All leaf conditions of the tree use only `BeginsWith`, `NotNull` or
`Null`. -/
def ConditionMap.onlySafeVariants {T : Type} : ConditionMap T → Bool
  | .Leaves _ cs => cs.all (fun kc => kc.condition.needsNoEncoding)
  | .Node _ m => onlySafeChildren m

/-- Loop form of `ConditionMap.onlySafeVariants`. -/
def onlySafeChildren {T : Type} : List (String × ConditionMap T) → Bool
  | [] => true
  | c :: rest => c.2.onlySafeVariants && onlySafeChildren rest

end

theorem needsNoEncoding_operands {T : Type} (c : Condition T)
    (h : c.needsNoEncoding = true) : c.operands = [] := by
  cases c <;> first | rfl | exact Bool.noConfusion h

mutual

theorem onlySafe_allOk {T : Type} [Serialize T] :
    ∀ (t : ConditionMap T), t.onlySafeVariants = true → t.allOk = true
  | .Leaves operator cs, h => by
      simp only [ConditionMap.onlySafeVariants] at h
      simp only [ConditionMap.allOk]
      rw [List.all_eq_true] at h ⊢
      intro kc hkc
      rw [needsNoEncoding_operands kc.condition (h kc hkc)]
      rfl
  | .Node operator m, h => by
      simp only [ConditionMap.onlySafeVariants] at h
      simp only [ConditionMap.allOk]
      exact onlySafeChildren_allOk m h

theorem onlySafeChildren_allOk {T : Type} [Serialize T] :
    ∀ (l : List (String × ConditionMap T)),
      onlySafeChildren l = true → condChildrenOk l = true
  | [], _ => rfl
  | c :: rest, h => by
      simp only [onlySafeChildren] at h
      simp only [condChildrenOk]
      rw [Bool.and_eq_true] at h ⊢
      exact ⟨onlySafe_allOk c.2 h.1, onlySafeChildren_allOk rest h.2⟩

end

theorem isOk_exists {ε α : Type} {e : Except ε α} (h : exceptIsOk e = true) :
    ∃ a, e = .ok a := by
  cases e with
  | error msg => exact Bool.noConfusion h
  | ok a => exact ⟨a, rfl⟩

/-! Worked examples (the trees of the repository's tests and of the spec's
literal examples), over the concrete operand type `TestValue`. -/

/-- Spec example `Node(AND, {a: Node(AND,{b: Leaves(AND,[c=d,e=f])}), b:
Leaves(OR,[g=h,i=j])})`. -/
def deep_nested_example : ConditionMap TestValue :=
  .Node .And
    [("a", .Node .And
        [("b", .Leaves .And
            [⟨.Equals (.str "d"), "c"⟩, ⟨.Equals (.str "f"), "e"⟩])]),
     ("b", .Leaves .Or
        [⟨.Equals (.str "h"), "g"⟩, ⟨.Equals (.str "j"), "i"⟩])]

/-- Spec example `Leaves(AND, [a=b, c=1])`. -/
def two_leaves_example : ConditionMap TestValue :=
  .Leaves .And [⟨.Equals (.str "b"), "a"⟩, ⟨.Equals (.num 1), "c"⟩]

/-- Spec example
`Combined([Set(Leaves([(attr1,Assign(v1))])), Remove(Leaves([oldAttr])),
Add(Leaves([(count,5)]))])`. -/
def combined_update_example : UpdateExpressionMap TestValue :=
  .Combined
    [.Set (.Leaves [("attr1", .Assign (.str "val1"))]),
     .Remove (.Leaves ["oldAttr"]),
     .Add (.Leaves [("count", .num 5)])]

/-- Spec example `Node({a: Leaves([b,c]), d: Leaves([e,f])})`. -/
def selection_example : SelectionMap :=
  .Node [("a", .Leaves ["b", "c"]), ("d", .Leaves ["e", "f"])]

/-- Same attribute under two different operators in one OR list (repo test
`leaves_same_key_or_different_operators`). -/
def or_same_key_example : ConditionMap TestValue :=
  .Leaves .Or [⟨.GreaterThan (.num 5), "a"⟩, ⟨.LessThan (.num 3), "a"⟩]

/-- Expected output of `or_same_key_example`. -/
def or_same_key_output : ExpressionInput :=
  { expression := "#a > :a_gt0 OR #a < :a_lt1"
    expression_attribute_names := [("#a", "a"), ("#a", "a")]
    expression_attribute_values := [(":a_gt0", .N "5"), (":a_lt1", .N "3")] }

/-- Expected output of `combined_update_example`. -/
def combined_update_output : ExpressionInput :=
  { expression := "SET #attr1 = :set0 REMOVE #oldAttr ADD #count :add_or_delete1"
    expression_attribute_names :=
      [("#attr1", "attr1"), ("#oldAttr", "oldAttr"), ("#count", "count")]
    expression_attribute_values :=
      [(":set0", .S "val1"), (":add_or_delete1", .N "5")] }

/-- Condition tree with a leaf whose operand fails to encode. -/
def failing_condition_example : ConditionMap TestValue :=
  .Leaves .And [⟨.Equals .bad, "a"⟩]

/-- Update tree with a leaf whose operand fails to encode. -/
def failing_update_example : UpdateExpressionMap TestValue :=
  .Set (.Leaves [("x", .Assign .bad)])

/-- Condition tree using only the variants that never encode an operand. -/
def safe_tree_example : ConditionMap TestValue :=
  .Node .And
    [("a", .Leaves .And
        [⟨.BeginsWith "p", "b"⟩, ⟨.NotNull, "c"⟩, ⟨.Null, "d"⟩])]

/-- C1: the condition compiler wraps a node's merged expression text in
parentheses if and only if `is_composite` holds for that node, evaluated
with the `is_nested` value the node was entered with; `is_composite` is
false for a `Leaves` node unless it is nested with more than one leaf, and a
`Node` is never composite when some child is composite under the child
nesting flag, otherwise composite iff nested with more than one key; the
spec's deep nested example compiles to the literal expression text. -/
theorem C1_parenthesization_policy :
    (∀ (T : Type) [Serialize T] (t : ConditionMap T) (keys : List String)
        (i : Nat) (b : Bool),
        t.get_expression_operation_recursive keys i b =
          (t.merged_operation keys i b).map
            (fun r => (if t.is_composite b then
                { r.1 with expression := "(" ++ r.1.expression ++ ")" }
              else r.1, r.2))) ∧
    (∀ (T : Type) (operator : LogicalOperator) (cs : List (KeyCondition T))
        (b : Bool),
        (ConditionMap.Leaves operator cs).is_composite b =
          (b && decide (cs.length > 1))) ∧
    (∀ (T : Type) (operator : LogicalOperator)
        (m : List (String × ConditionMap T)) (b : Bool),
        (ConditionMap.Node operator m).is_composite b =
          (if m.any (fun child =>
              child.2.is_composite (b || decide (m.length > 1)))
           then false
           else b && decide (m.length > 1))) ∧
    (conditionMapTryInto deep_nested_example).map (fun o => o.expression) =
      .ok "(#a.#b.#c = :c_eq0 AND #a.#b.#e = :e_eq1) AND (#b.#g = :g_eq2 OR #b.#i = :i_eq3)" := by
  refine ⟨?_, ?_, ?_, rfl⟩
  · intro T _ t keys i b
    exact gEOR_eq_merged t keys i b
  · intro T operator cs b
    rfl
  · intro T operator m b
    have hdef : (ConditionMap.Node operator m).is_composite b =
        (if anyChildComposite m (b || decide (m.length > 1)) then false
         else if b then decide (m.length > 1) else false) := rfl
    rw [hdef, anyChild_eq_any]
    cases b <;> simp

/-- C2: in any compiled condition tree and any compiled update tree (fresh
counter), the keys of the resulting values map are pairwise distinct. -/
theorem C2_value_placeholder_uniqueness :
    (∀ (T : Type) [Serialize T] (t : ConditionMap T) (o : ExpressionInput),
        conditionMapTryInto t = .ok o →
        (o.expression_attribute_values.map Prod.fst).Nodup) ∧
    (∀ (T : Type) [Serialize T] (u : UpdateExpressionMap T) (o : ExpressionInput),
        updateMapTryInto u = .ok o →
        (o.expression_attribute_values.map Prod.fst).Nodup) := by
  constructor
  · intro T _ t o h
    rw [conditionMapTryInto] at h
    obtain ⟨pair, hg, hf⟩ := map_ok_iff.mp h
    obtain ⟨op, i'⟩ := pair
    have ho : op = o := hf
    subst ho
    exact (cond_map_runs t [] 0 false (op, i') hg).2.keys_nodup
  · intro T _ u o h
    rw [updateMapTryInto] at h
    obtain ⟨pair, hg, hf⟩ := map_ok_iff.mp h
    obtain ⟨op, i'⟩ := pair
    have ho : op = o := hf
    subst ho
    exact (update_map_runs u [] 0 (op, i') hg).2.keys_nodup

/-- Witness for C2 at concrete inputs: the same attribute appearing under
two operators in one OR list, and a combined update expression. -/
theorem C2_witness :
    (conditionMapTryInto or_same_key_example = .ok or_same_key_output ∧
      ((or_same_key_output.expression_attribute_values.map Prod.fst).Nodup)) ∧
    (updateMapTryInto combined_update_example = .ok combined_update_output ∧
      ((combined_update_output.expression_attribute_values.map Prod.fst).Nodup)) :=
  ⟨⟨rfl, C2_value_placeholder_uniqueness.1 TestValue or_same_key_example
      or_same_key_output rfl⟩,
   ⟨rfl, C2_value_placeholder_uniqueness.2 TestValue combined_update_example
      combined_update_output rfl⟩⟩

/-- C3: `is_composite` evaluates to false for every tree when `is_nested` is
false, so a root compile (which starts with `is_nested = false`) is never
wrapped in outer parentheses; the spec's two-leaf example stays unwrapped. -/
theorem C3_root_never_wrapped :
    (∀ (T : Type) (t : ConditionMap T), t.is_composite false = false) ∧
    (∀ (T : Type) [Serialize T] (t : ConditionMap T),
        conditionMapTryInto t = (t.merged_operation [] 0 false).map Prod.fst) ∧
    (conditionMapTryInto two_leaves_example).map (fun o => o.expression) =
      .ok "#a = :a_eq0 AND #c = :c_eq1" := by
  refine ⟨?_, ?_, rfl⟩
  · intro T t
    exact is_composite_false t
  · intro T _ t
    exact tryInto_eq_merged t

/-- C4: every value placeholder of the condition compiler has the format
`":" ++ segment ++ "_" ++ operator_tag ++ index` with the counter
incremented once immediately after each allocation; `In(list)` allocates one
placeholder per element, tagged `in` and suffixed by the element index, and
produces the fragment `path IN (ph0, ph1, …)`. -/
theorem C4_value_placeholder_format :
    (∀ (T : Type) [Serialize T] (p key kp : String) (i : Nat),
        (Condition.BeginsWith (T := T) p).get_expression key kp i =
          .ok ("begins_with(" ++ kp ++ ", " ++
              (":" ++ key ++ "_begins_with" ++ fmtNat i) ++ ")",
            [(":" ++ key ++ "_begins_with" ++ fmtNat i, .S p)], i + 1)) ∧
    (∀ (T : Type) [Serialize T] (v1 v2 : T) (key kp : String) (i : Nat)
        (res : String × HMap AttributeValue × Nat),
        (Condition.Between v1 v2).get_expression key kp i = .ok res →
        res.2.1.map Prod.fst =
          [":" ++ key ++ "_between" ++ fmtNat i,
           ":" ++ key ++ "_between" ++ fmtNat (i + 1)] ∧
        res.2.2 = i + 2) ∧
    (∀ (T : Type) [Serialize T] (v : T) (key kp : String) (i : Nat)
        (res : String × HMap AttributeValue × Nat),
        (Condition.Contains v).get_expression key kp i = .ok res →
        res.2.1.map Prod.fst = [":" ++ key ++ "_contains" ++ fmtNat i] ∧
        res.2.2 = i + 1) ∧
    (∀ (T : Type) [Serialize T] (v : T) (key kp : String) (i : Nat)
        (res : String × HMap AttributeValue × Nat),
        (Condition.Equals v).get_expression key kp i = .ok res →
        res.2.1.map Prod.fst = [":" ++ key ++ "_eq" ++ fmtNat i] ∧
        res.2.2 = i + 1) ∧
    (∀ (T : Type) [Serialize T] (v : T) (key kp : String) (i : Nat)
        (res : String × HMap AttributeValue × Nat),
        (Condition.GreaterThan v).get_expression key kp i = .ok res →
        res.2.1.map Prod.fst = [":" ++ key ++ "_gt" ++ fmtNat i] ∧
        res.2.2 = i + 1) ∧
    (∀ (T : Type) [Serialize T] (v : T) (key kp : String) (i : Nat)
        (res : String × HMap AttributeValue × Nat),
        (Condition.GreaterThanOrEqual v).get_expression key kp i = .ok res →
        res.2.1.map Prod.fst = [":" ++ key ++ "_gte" ++ fmtNat i] ∧
        res.2.2 = i + 1) ∧
    (∀ (T : Type) [Serialize T] (vs : List T) (key kp : String) (i : Nat)
        (res : String × HMap AttributeValue × Nat),
        (Condition.In vs).get_expression key kp i = .ok res →
        res.2.1.map Prod.fst =
          (List.range vs.length).map
            (fun t => ":" ++ key ++ "_in" ++ fmtNat (i + t) ++ "_" ++ fmtNat t) ∧
        res.1 = kp ++ " IN (" ++
          joinSep ", " ((List.range vs.length).map
            (fun t => ":" ++ key ++ "_in" ++ fmtNat (i + t) ++ "_" ++ fmtNat t)) ++
          ")" ∧
        res.2.2 = i + vs.length) ∧
    (∀ (T : Type) [Serialize T] (v : T) (key kp : String) (i : Nat)
        (res : String × HMap AttributeValue × Nat),
        (Condition.LessThan v).get_expression key kp i = .ok res →
        res.2.1.map Prod.fst = [":" ++ key ++ "_lt" ++ fmtNat i] ∧
        res.2.2 = i + 1) ∧
    (∀ (T : Type) [Serialize T] (v : T) (key kp : String) (i : Nat)
        (res : String × HMap AttributeValue × Nat),
        (Condition.LessThanOrEqual v).get_expression key kp i = .ok res →
        res.2.1.map Prod.fst = [":" ++ key ++ "_lte" ++ fmtNat i] ∧
        res.2.2 = i + 1) ∧
    (∀ (T : Type) [Serialize T] (v : T) (key kp : String) (i : Nat)
        (res : String × HMap AttributeValue × Nat),
        (Condition.NotContains v).get_expression key kp i = .ok res →
        res.2.1.map Prod.fst = [":" ++ key ++ "_not_contains" ++ fmtNat i] ∧
        res.2.2 = i + 1) ∧
    (∀ (T : Type) [Serialize T] (v : T) (key kp : String) (i : Nat)
        (res : String × HMap AttributeValue × Nat),
        (Condition.NotEqual v).get_expression key kp i = .ok res →
        res.2.1.map Prod.fst = [":" ++ key ++ "_ne" ++ fmtNat i] ∧
        res.2.2 = i + 1) ∧
    (∀ (T : Type) [Serialize T] (key kp : String) (i : Nat),
        (Condition.NotNull : Condition T).get_expression key kp i =
          .ok ("attribute_exists(" ++ kp ++ ")", [], i)) ∧
    (∀ (T : Type) [Serialize T] (key kp : String) (i : Nat),
        (Condition.Null : Condition T).get_expression key kp i =
          .ok ("attribute_not_exists(" ++ kp ++ ")", [], i)) := by
  refine ⟨fun T _ p key kp i => rfl, ?_, ?_, ?_, ?_, ?_, ?_, ?_, ?_, ?_, ?_,
    fun T _ key kp i => rfl, fun T _ key kp i => rfl⟩
  · intro T _ v1 v2 key kp i res h
    simp only [Condition.get_expression] at h
    obtain ⟨a1, h1, h2⟩ := bind_ok_iff.mp h
    obtain ⟨a2, h3, hok⟩ := bind_ok_iff.mp h2
    injection hok with hok
    subst hok
    exact ⟨rfl, rfl⟩
  · intro T _ v key kp i res h
    simp only [Condition.get_expression] at h
    obtain ⟨a, ha, hok⟩ := bind_ok_iff.mp h
    injection hok with hok
    subst hok
    exact ⟨rfl, rfl⟩
  · intro T _ v key kp i res h
    simp only [Condition.get_expression] at h
    obtain ⟨a, ha, hok⟩ := bind_ok_iff.mp h
    injection hok with hok
    subst hok
    exact ⟨rfl, rfl⟩
  · intro T _ v key kp i res h
    simp only [Condition.get_expression] at h
    obtain ⟨a, ha, hok⟩ := bind_ok_iff.mp h
    injection hok with hok
    subst hok
    exact ⟨rfl, rfl⟩
  · intro T _ v key kp i res h
    simp only [Condition.get_expression] at h
    obtain ⟨a, ha, hok⟩ := bind_ok_iff.mp h
    injection hok with hok
    subst hok
    exact ⟨rfl, rfl⟩
  · intro T _ vs key kp i res h
    simp only [Condition.get_expression] at h
    obtain ⟨trip, htrip, hok⟩ := bind_ok_iff.mp h
    obtain ⟨entries, phs, i'⟩ := trip
    injection hok with hok
    subst hok
    obtain ⟨hk, hp, hi⟩ := inLoop_keys key vs i 0 (entries, phs, i') htrip
    have hfix : (List.range vs.length).map
        (fun t => ":" ++ key ++ "_in" ++ fmtNat (i + t) ++ "_" ++ fmtNat (0 + t)) =
        (List.range vs.length).map
          (fun t => ":" ++ key ++ "_in" ++ fmtNat (i + t) ++ "_" ++ fmtNat t) := by
      refine List.map_congr_left ?_
      intro t ht
      rw [Nat.zero_add]
    have hkc : entries.map Prod.fst =
        (List.range vs.length).map
          (fun t => ":" ++ key ++ "_in" ++ fmtNat (i + t) ++ "_" ++ fmtNat (0 + t)) := hk
    have hpc : phs =
        (List.range vs.length).map
          (fun t => ":" ++ key ++ "_in" ++ fmtNat (i + t) ++ "_" ++ fmtNat (0 + t)) := hp
    have hic : i' = i + vs.length := hi
    refine ⟨?_, ?_, hic⟩
    · show entries.map Prod.fst = _
      rw [hkc, hfix]
    · show kp ++ " IN (" ++ joinSep ", " phs ++ ")" = _
      rw [hpc, hfix]
  · intro T _ v key kp i res h
    simp only [Condition.get_expression] at h
    obtain ⟨a, ha, hok⟩ := bind_ok_iff.mp h
    injection hok with hok
    subst hok
    exact ⟨rfl, rfl⟩
  · intro T _ v key kp i res h
    simp only [Condition.get_expression] at h
    obtain ⟨a, ha, hok⟩ := bind_ok_iff.mp h
    injection hok with hok
    subst hok
    exact ⟨rfl, rfl⟩
  · intro T _ v key kp i res h
    simp only [Condition.get_expression] at h
    obtain ⟨a, ha, hok⟩ := bind_ok_iff.mp h
    injection hok with hok
    subst hok
    exact ⟨rfl, rfl⟩
  · intro T _ v key kp i res h
    simp only [Condition.get_expression] at h
    obtain ⟨a, ha, hok⟩ := bind_ok_iff.mp h
    injection hok with hok
    subst hok
    exact ⟨rfl, rfl⟩

/-- Witness for C4 at concrete inputs: an `Equals` leaf and a two-element
`In` leaf. -/
theorem C4_witness :
    ((Condition.Equals (TestValue.num 7)).get_expression "a" "#a" 0 =
      .ok ("#a = :a_eq0", [(":a_eq0", .N "7")], 1) ∧
      ([(":a_eq0", AttributeValue.N "7")].map Prod.fst = [":a_eq0"] ∧ (1 : Nat) = 0 + 1)) ∧
    ((Condition.In [TestValue.num 1, TestValue.num 2]).get_expression "a" "#a" 3 =
      .ok ("#a IN (:a_in3_0, :a_in4_1)",
        [(":a_in3_0", .N "1"), (":a_in4_1", .N "2")], 5) ∧
      ([(":a_in3_0", AttributeValue.N "1"), (":a_in4_1", AttributeValue.N "2")].map Prod.fst =
        (List.range 2).map
          (fun t => ":" ++ "a" ++ "_in" ++ fmtNat (3 + t) ++ "_" ++ fmtNat t))) :=
  ⟨⟨rfl, C4_value_placeholder_format.2.2.2.1 TestValue (TestValue.num 7) "a" "#a" 0
      ("#a = :a_eq0", [(":a_eq0", .N "7")], 1) (by rfl) |>.imp (fun hx => hx) (fun hx => hx)⟩,
   ⟨rfl, (C4_value_placeholder_format.2.2.2.2.2.2.1 TestValue
      [TestValue.num 1, TestValue.num 2] "a" "#a" 3
      ("#a IN (:a_in3_0, :a_in4_1)",
        [(":a_in3_0", .N "1"), (":a_in4_1", .N "2")], 5) (by rfl)).1⟩⟩

/-- C5: the sub-trees of a `Combined` update compile in order against one
shared counter, clause texts merge with a single space and maps are
unioned; `REMOVE` consumes no value placeholder and leaves the counter
unchanged; the spec's combined example yields the literal text with the ADD
clause continuing at counter index 1. -/
theorem C5_combined_counter_continuity :
    ((updateMapTryInto combined_update_example).map (fun o => o.expression) =
      .ok "SET #attr1 = :set0 REMOVE #oldAttr ADD #count :add_or_delete1") ∧
    (∀ (T : Type) [Serialize T] (l : List (UpdateExpressionMap T))
        (keys : List String) (i : Nat),
        (UpdateExpressionMap.Combined l).get_update_expression_recursive keys i =
          (combined_loop l keys i).map
            (fun r => (ExpressionInput.merge " " r.1, r.2))) ∧
    (∀ (T : Type) [Serialize T] (sel : SelectionMap) (keys : List String)
        (i : Nat),
        (UpdateExpressionMap.Remove (T := T) sel).get_update_expression_recursive
            keys i =
          .ok ({ sel.get_selection_operation_recursive keys with
              expression := "REMOVE " ++
                (sel.get_selection_operation_recursive keys).expression }, i)) := by
  refine ⟨rfl, ?_, fun T _ sel keys i => rfl⟩
  intro T _ l keys i
  simp only [UpdateExpressionMap.get_update_expression_recursive]
  cases hc : combined_loop l keys i with
  | error e => rfl
  | ok pair =>
      obtain ⟨ops, i'⟩ := pair
      rfl

/-- C6: merging no atoms yields the empty atom, merging one atom yields it
unchanged, and the fold's text-join rule takes the other side verbatim when
one side is empty and otherwise concatenates with the operator text as
separator. -/
theorem C6_merge_join_laws :
    (∀ (operator : String),
        ExpressionInput.merge operator [] = ({} : ExpressionInput)) ∧
    (∀ (operator : String) (a : ExpressionInput),
        ExpressionInput.merge operator [a] = a) ∧
    (∀ (operator r : String), get_expression "" operator r = r) ∧
    (∀ (operator l : String), get_expression l operator "" = l) ∧
    (∀ (operator l r : String), l ≠ "" → r ≠ "" →
        get_expression l operator r = l ++ operator ++ r) := by
  refine ⟨fun operator => rfl, fun operator a => rfl, fun operator r => rfl,
    ?_, ?_⟩
  · intro operator l
    by_cases hl : l = ""
    · subst hl
      rfl
    · rw [get_expression, if_neg hl, if_pos rfl]
  · intro operator l r hl hr
    rw [get_expression, if_neg hl, if_neg hr]

/-- Witness for C6 at concrete nonempty texts. -/
theorem C6_witness :
    ("a" : String) ≠ "" ∧ ("b" : String) ≠ "" ∧
      get_expression "a" " AND " "b" = "a AND b" :=
  ⟨by decide, by decide,
    C6_merge_join_laws.2.2.2.2 " AND " "a" "b" (by decide) (by decide)⟩

/-- C7: the selection compiler's expression text is the `", "`-joined list of
the `.`-joined placeholder paths of all leaves in depth-first insertion
order, its values map is empty, and the spec's example yields the literal
text. -/
theorem C7_selection_join_law :
    (∀ (s : SelectionMap) (keys : List String),
        (s.get_selection_operation_recursive keys).expression =
          joinSep ", " ((selPaths s keys).map (joinSep "."))) ∧
    (∀ (s : SelectionMap) (keys : List String),
        (s.get_selection_operation_recursive keys).expression_attribute_values =
          []) ∧
    (selectionMapInto selection_example).expression = "#a.#b, #a.#c, #d.#e, #d.#f" :=
  ⟨selection_expr_eq, selection_values_nil, rfl⟩

/-- C8: condition and update compilation succeed exactly when every leaf
operand encodes successfully, and a failed compilation returns an error
(carrying no atom) that is the encoding error of some leaf operand. -/
theorem C8_error_propagation :
    (∀ (T : Type) [Serialize T] (t : ConditionMap T) (keys : List String)
        (i : Nat) (b : Bool),
        (∃ res, t.get_expression_operation_recursive keys i b = .ok res) ↔
          t.allOk = true) ∧
    (∀ (T : Type) [Serialize T] (t : ConditionMap T) (keys : List String)
        (i : Nat) (b : Bool) (e : String),
        t.get_expression_operation_recursive keys i b = .error e →
        ∃ v ∈ t.operandsList, to_attribute_value v = .error e) ∧
    (∀ (T : Type) [Serialize T] (u : UpdateExpressionMap T)
        (keys : List String) (i : Nat),
        (∃ res, u.get_update_expression_recursive keys i = .ok res) ↔
          u.allOk = true) ∧
    (∀ (T : Type) [Serialize T] (u : UpdateExpressionMap T)
        (keys : List String) (i : Nat) (e : String),
        u.get_update_expression_recursive keys i = .error e →
        ∃ v ∈ u.operandsList, to_attribute_value v = .error e) := by
  refine ⟨?_, ?_, ?_, ?_⟩
  · intro T _ t keys i b
    constructor
    · rintro ⟨res, hres⟩
      rw [← cond_map_isOk_eq t keys i b, hres]
      rfl
    · intro hall
      exact isOk_exists (by rw [cond_map_isOk_eq]; exact hall)
  · intro T _ t keys i b e h
    exact cond_map_error t keys i b e h
  · intro T _ u keys i
    constructor
    · rintro ⟨res, hres⟩
      rw [← update_map_isOk_eq u keys i, hres]
      rfl
    · intro hall
      exact isOk_exists (by rw [update_map_isOk_eq]; exact hall)
  · intro T _ u keys i e h
    exact update_map_error u keys i e h

/-- Witness for C8 at concrete inputs: an all-encodable condition tree and
update tree compile; trees with a failing operand surface that operand's
encoding error. -/
theorem C8_witness :
    (∃ res, two_leaves_example.get_expression_operation_recursive [] 0 false =
      .ok res) ∧
    (∃ v ∈ failing_condition_example.operandsList,
      to_attribute_value v = .error "unsupported value") ∧
    (∃ res, combined_update_example.get_update_expression_recursive [] 0 =
      .ok res) ∧
    (∃ v ∈ failing_update_example.operandsList,
      to_attribute_value v = .error "unsupported value") :=
  ⟨(C8_error_propagation.1 TestValue two_leaves_example [] 0 false).mpr (by rfl),
   C8_error_propagation.2.1 TestValue failing_condition_example [] 0 false
     "unsupported value" (by rfl),
   (C8_error_propagation.2.2.1 TestValue combined_update_example [] 0).mpr (by rfl),
   C8_error_propagation.2.2.2 TestValue failing_update_example [] 0
     "unsupported value" (by rfl)⟩

/-- C9: every names-map entry produced by the condition, selection and
update compilers binds the `#`-prefixed copy of a segment to that segment;
merging preserves the invariant, and two entries of such a map with equal
keys are equal pairs, so an overwriting insert never changes a binding. -/
theorem C9_name_placeholder_invariant :
    (∀ (T : Type) [Serialize T] (t : ConditionMap T) (keys : List String)
        (i : Nat) (b : Bool) (res : ExpressionInput × Nat),
        t.get_expression_operation_recursive keys i b = .ok res →
        ∀ p ∈ res.1.expression_attribute_names, p.1 = "#" ++ p.2) ∧
    (∀ (s : SelectionMap) (keys : List String),
        ∀ p ∈ (s.get_selection_operation_recursive keys).expression_attribute_names,
          p.1 = "#" ++ p.2) ∧
    (∀ (T : Type) [Serialize T] (u : UpdateExpressionMap T)
        (keys : List String) (i : Nat) (res : ExpressionInput × Nat),
        u.get_update_expression_recursive keys i = .ok res →
        ∀ p ∈ res.1.expression_attribute_names, p.1 = "#" ++ p.2) ∧
    (∀ (operator : String) (items : List ExpressionInput),
        (∀ a ∈ items, NamesInv a.expression_attribute_names) →
        NamesInv (ExpressionInput.merge operator items).expression_attribute_names) ∧
    (∀ (m : HMap String), NamesInv m →
        ∀ p ∈ m, ∀ q ∈ m, p.1 = q.1 → p = q) := by
  refine ⟨?_, ?_, ?_, merge_names_inv, ?_⟩
  · intro T _ t keys i b res h
    exact cond_map_names_inv t keys i b res h
  · intro s keys
    exact selection_names_inv s keys
  · intro T _ u keys i res h
    exact update_map_names_inv u keys i res h
  · intro m hm p hp q hq heq
    have hpq : "#" ++ p.2 = "#" ++ q.2 := by
      rw [← hm p hp, ← hm q hq]
      exact heq
    exact Prod.ext heq (hash_inj hpq)

/-- Witness for C9 at a concrete input: the single names-map entry of a
one-leaf selection satisfies the invariant. -/
theorem C9_witness : ("#a", "a").1 = "#" ++ ("#a", "a").2 :=
  C9_name_placeholder_invariant.2.1 (SelectionMap.Leaves ["a"]) [] ("#a", "a")
    (List.Mem.head _)

/-- C10: `BeginsWith` stores its argument directly as a string attribute
value without invoking the encoder, `NotNull` and `Null` allocate no value
placeholder and leave the counter unchanged, a condition tree whose leaves
use only these variants always compiles, and a `Remove` update clause
always compiles. -/
theorem C10_safe_variants_total :
    (∀ (T : Type) [Serialize T] (p key kp : String) (i : Nat),
        (Condition.BeginsWith (T := T) p).get_expression key kp i =
          .ok ("begins_with(" ++ kp ++ ", " ++
              (":" ++ key ++ "_begins_with" ++ fmtNat i) ++ ")",
            [(":" ++ key ++ "_begins_with" ++ fmtNat i, AttributeValue.S p)],
            i + 1)) ∧
    (∀ (T : Type) [Serialize T] (key kp : String) (i : Nat),
        (Condition.NotNull : Condition T).get_expression key kp i =
          .ok ("attribute_exists(" ++ kp ++ ")", [], i) ∧
        (Condition.Null : Condition T).get_expression key kp i =
          .ok ("attribute_not_exists(" ++ kp ++ ")", [], i)) ∧
    (∀ (T : Type) [Serialize T] (t : ConditionMap T),
        t.onlySafeVariants = true → ∃ o, conditionMapTryInto t = .ok o) ∧
    (∀ (T : Type) [Serialize T] (sel : SelectionMap) (keys : List String)
        (i : Nat),
        ∃ res, (UpdateExpressionMap.Remove (T := T) sel).get_update_expression_recursive
          keys i = .ok res) := by
  refine ⟨fun T _ p key kp i => rfl, fun T _ key kp i => ⟨rfl, rfl⟩, ?_,
    fun T _ sel keys i => ⟨_, rfl⟩⟩
  intro T _ t h
  have hall : t.allOk = true := onlySafe_allOk t h
  obtain ⟨pair, hpair⟩ := isOk_exists
    (e := t.get_expression_operation_recursive [] 0 false)
    (by rw [cond_map_isOk_eq]; exact hall)
  obtain ⟨o, i'⟩ := pair
  refine ⟨o, ?_⟩
  rw [conditionMapTryInto, hpair]
  rfl

/-- Witness for C10 at a concrete input: a tree using only `BeginsWith`,
`NotNull` and `Null` compiles successfully. -/
theorem C10_witness :
    safe_tree_example.onlySafeVariants = true ∧
      ∃ o, conditionMapTryInto safe_tree_example = .ok o :=
  ⟨rfl, C10_safe_variants_total.2.2.1 TestValue safe_tree_example rfl⟩

end DDB

